import Mathlib

/-!
Verification of the euchre round engine: a shallow embedding of the card
model, the round state machine, and the tree-structured action log, with
theorems settling the specified properties.
-/

set_option maxRecDepth 4000

namespace Deckard

/-! ## Card model (src/french.rs and src/euchre/card.rs) -/

/-- Suit color, from french.rs. -/
inductive Color where
  | Red
  | Black
deriving DecidableEq, Fintype

/-- French suits, in the declaration order of french.rs. -/
inductive Suit where
  | Club
  | Diamond
  | Spade
  | Heart
deriving DecidableEq, Fintype

/-- Euchre card rank, in the declaration order of euchre/card.rs. -/
inductive Rank where
  | Nine
  | Ten
  | Jack
  | Queen
  | King
  | Ace
deriving DecidableEq, Fintype

/-- Color of a suit, from Suit::color. -/
def Suit.color : Suit → Color
  | .Diamond => .Red
  | .Heart => .Red
  | .Club => .Black
  | .Spade => .Black

/-- The other suit of the same color, from Suit::to_matching_color. -/
def Suit.to_matching_color : Suit → Suit
  | .Club => .Spade
  | .Diamond => .Heart
  | .Heart => .Diamond
  | .Spade => .Club

/-- A euchre card, from euchre/card.rs. -/
structure Card where
  rank : Rank
  suit : Suit
deriving DecidableEq, Fintype

/-- Card::is_trump: the card has the trump suit, or is the same-color Jack. -/
def Card.is_trump (c : Card) (trump : Suit) : Bool :=
  c.suit = trump || (c.rank = Rank.Jack && c.suit.color = trump.color)

/-- Card::effective_suit: trump for trump cards, otherwise the own suit. -/
def Card.effective_suit (c : Card) (trump : Suit) : Suit :=
  if c.is_trump trump then trump else c.suit

/-- Card::is_following: the effective suits agree. -/
def Card.is_following (c : Card) (trump : Suit) (lead : Card) : Bool :=
  c.effective_suit trump = lead.effective_suit trump

/-- Card::value: ranking of a card relative to the trump suit and lead card. -/
def Card.value (c : Card) (trump : Suit) (lead : Card) : Nat :=
  if c.is_trump trump then
    match c.rank with
    | .Nine => 7
    | .Ten => 8
    | .Queen => 9
    | .King => 10
    | .Ace => 11
    | .Jack => if c.suit = trump then 13 else 12
  else if c.suit = lead.suit && !(lead.is_trump trump) then
    match c.rank with
    | .Nine => 1
    | .Ten => 2
    | .Jack => 3
    | .Queen => 4
    | .King => 5
    | .Ace => 6
  else 0

/-! ## Seats and teams (src/euchre/seat.rs) -/

/-- Table position, from euchre/seat.rs. -/
inductive Seat where
  | North
  | East
  | South
  | West
deriving DecidableEq, Fintype

/-- The two teams of opposite seats. -/
inductive Team where
  | NorthSouth
  | EastWest
deriving DecidableEq, Fintype

/-- Seat::opposite: the teammate. -/
def Seat.opposite : Seat → Seat
  | .North => .South
  | .East => .West
  | .South => .North
  | .West => .East

/-- Seat::next: the next seat in clockwise order. -/
def Seat.next : Seat → Seat
  | .North => .East
  | .East => .South
  | .South => .West
  | .West => .North

/-- Seat::next_n: the next n seats in clockwise order. -/
def Seat.next_n (s : Seat) : Nat → List Seat
  | 0 => []
  | n + 1 => s.next :: s.next.next_n n

/-- Team::from(Seat). -/
def Team.ofSeat : Seat → Team
  | .North => .NorthSouth
  | .South => .NorthSouth
  | .East => .EastWest
  | .West => .EastWest

/-- Team::other. -/
def Team.other : Team → Team
  | .NorthSouth => .EastWest
  | .EastWest => .NorthSouth

/-! ## Actions (src/euchre/action.rs) -/

/-- Types of actions that a player can take, from euchre/action.rs. -/
inductive ActionType where
  | BidTop
  | BidOther
  | DealerDiscard
  | Lead
  | Follow
deriving DecidableEq, Fintype

/-- The payload for player actions, from euchre/action.rs. -/
inductive ActionData where
  | Pass
  | Call (suit : Suit) (alone : Bool)
  | Card (card : Card)
deriving DecidableEq

/-- The next action that the state machine expects, from euchre/action.rs. -/
structure ExpectAction where
  seat : Seat
  action : ActionType
deriving DecidableEq

/-- An action taken by a player, from euchre/action.rs. -/
structure Action where
  seat : Seat
  action : ActionType
  data : ActionData
deriving DecidableEq

/-! ## Errors (src/euchre/error.rs) -/

/-- An invalid action taken by a player, from euchre/error.rs. -/
inductive PlayerError where
  | DealerMustBidOther
  | MustCallTopSuit (suit : Suit)
  | CannotCallTopSuit (suit : Suit)
  | CardNotHeld (seat : Seat) (card : Card)
  | MustFollowLead (seat : Seat) (card : Card)
deriving DecidableEq

/-- An error that can occur during the round, from euchre/error.rs. -/
inductive RoundError where
  | IncompleteDeck
  | DuplicateCard
  | InvalidHandSize
  | InvalidActionData
  | ExpectActioned (seat : Seat) (action : ActionType)
  | RoundOver
  | InvalidLogId (id : Nat)
  | Player (e : PlayerError)
deriving DecidableEq

/-! ## Trick (src/euchre/trick.rs) -/

/-- Placeholder play used to model a vector index on the lead or best
position; every reachable trick is nonempty with the best index in bounds,
so the placeholder is never produced by a reachable state. -/
def defaultPlay : Seat × Card := (Seat.North, ⟨Rank.Nine, Suit.Club⟩)

/-- A trick played during a round, from euchre/trick.rs. -/
structure Trick where
  trump : Suit
  cards : List (Seat × Card)
  best : Nat
  best_value : Nat
deriving DecidableEq

/-- Trick::new. -/
def Trick.new (trump : Suit) (leader : Seat) (card : Card) : Trick :=
  { trump := trump
    cards := [(leader, card)]
    best := 0
    best_value := card.value trump card }

/-- Trick::lead, the play at index 0. -/
def Trick.lead (t : Trick) : Seat × Card :=
  t.cards.headD defaultPlay

/-- Trick::best, the play at the stored best index. -/
def Trick.best_play (t : Trick) : Seat × Card :=
  t.cards.getD t.best defaultPlay

/-- Trick::is_following_lead: the card follows the lead, or the hand holds
no card that could follow. -/
def Trick.is_following_lead (t : Trick) (hand : List Card) (card : Card) : Bool :=
  card.is_following t.trump t.lead.2 ||
    !(hand.any (fun c => c.is_following t.trump t.lead.2))

/-- Trick::play: append the play, updating the best index when the value of
the card relative to the lead exceeds the stored best value. -/
def Trick.play (t : Trick) (seat : Seat) (card : Card) : Trick :=
  let card_value := card.value t.trump t.lead.2
  if t.best_value < card_value then
    { t with best_value := card_value, best := t.cards.length,
             cards := t.cards ++ [(seat, card)] }
  else
    { t with cards := t.cards ++ [(seat, card)] }

/-! ## Tricks (src/euchre/round/tricks.rs) -/

/-- Tricks played this round, from euchre/round/tricks.rs. -/
structure Tricks where
  tricks : List Trick
  trick_size : Nat
deriving DecidableEq

/-- Tricks::default: no tricks, four cards per trick. -/
def Tricks.default : Tricks := { tricks := [], trick_size := 4 }

/-- Tricks::push; the source asserts that fewer than five tricks exist, so
the overflowing case is modelled as the assertion failing (none). -/
def Tricks.push (t : Tricks) (trick : Trick) : Option Tricks :=
  if t.tricks.length < 5 then some { t with tricks := t.tricks ++ [trick] }
  else none

/-- Tricks::set_trick_size; the source asserts the size is 3 or 4 and is
only ever called with the literal 3, which satisfies the assertion. -/
def Tricks.set_trick_size (t : Tricks) (n : Nat) : Tricks :=
  { t with trick_size := n }

/-- Tricks::win_count: completed tricks whose best play belongs to the team. -/
def Tricks.win_count (t : Tricks) (team : Team) : Nat :=
  (t.tricks.filter
    (fun tr => decide (tr.cards.length = t.trick_size) &&
               decide (Team.ofSeat tr.best_play.1 = team))).length

/-! ## Hands and configuration (src/euchre/round.rs) -/

/-- The hand of each seat; models the seat-to-hand HashMap, which in every
constructed round holds exactly the four seats as keys. -/
structure Hands where
  north : List Card
  east : List Card
  south : List Card
  west : List Card
deriving DecidableEq

/-- Hand lookup. -/
def Hands.get (h : Hands) : Seat → List Card
  | .North => h.north
  | .East => h.east
  | .South => h.south
  | .West => h.west

/-- Hand replacement. -/
def Hands.set (h : Hands) : Seat → List Card → Hands
  | .North, cards => { h with north := cards }
  | .East, cards => { h with east := cards }
  | .South, cards => { h with south := cards }
  | .West, cards => { h with west := cards }

/-- The contract established by whomever calls suit, from euchre/round.rs. -/
structure Contract where
  maker : Seat
  suit : Suit
  alone : Bool
deriving DecidableEq

/-- The outcome of a round, from euchre/round.rs. -/
structure RoundOutcome where
  team : Team
  points : Nat
deriving DecidableEq

/-- Configuration and initial conditions for a round, from euchre/round.rs. -/
structure RoundConfig where
  dealer : Seat
  hands : Hands
  top : Card
deriving DecidableEq

/-- Events stored on the round event queue, from euchre.rs. -/
inductive Event where
  | Deal (dealer : Seat) (top : Card)
  | Call (contract : Contract)
  | Trick (trick : Deckard.Trick)
  | Round (outcome : RoundOutcome)
  | Game (team : Team)
deriving DecidableEq

/-! ## The round state machine (src/euchre/round/base.rs)

Partiality convention: every Rust panic (a failed expect, a failed assert,
or an out-of-range vector index that the state machine itself guards) is
modelled as the outer Option being none; an application that returns
Err(e) with the state unmutated is modelled as some (state, some e); a
successful application is some (state, none). -/

/-- The core round state, from euchre/round/base.rs. -/
structure BaseRound where
  dealer : Seat
  top : Card
  hands : Hands
  contract : Option Contract
  tricks : Tricks
  events : List Event
  next_action : Option ExpectAction
deriving DecidableEq

/-- BaseRound::from(RoundConfig). -/
def BaseRound.fromConfig (config : RoundConfig) : BaseRound :=
  { dealer := config.dealer
    top := config.top
    hands := config.hands
    contract := none
    tricks := Tricks.default
    events := [Event.Deal config.dealer config.top]
    next_action := some ⟨config.dealer.next, ActionType.BidTop⟩ }

/-- filter_seat: skips the teammate of the maker for a lone hand. -/
def filter_seat (contract : Contract) (seat : Seat) : Seat :=
  if contract.alone = true ∧ seat = contract.maker.opposite then seat.next
  else seat

/-- Round::outcome, the default trait method evaluated over the current
contract and trick win counts. -/
def BaseRound.outcome (r : BaseRound) : Option RoundOutcome :=
  match r.contract with
  | none => none
  | some contract =>
    let makers := Team.ofSeat contract.maker
    let defenders := makers.other
    let makers_count := r.tricks.win_count makers
    let defenders_count := r.tricks.win_count defenders
    if 3 ≤ defenders_count then some ⟨makers.other, 2⟩
    else if makers_count + defenders_count = 5 then
      if makers_count = 5 then
        if contract.alone then some ⟨makers, 4⟩ else some ⟨makers, 2⟩
      else some ⟨makers, 1⟩
    else none

/-- BaseRound::next_trick. -/
def BaseRound.next_trick (r : BaseRound) (seat : Seat) : BaseRound :=
  { r with next_action := some ⟨seat, ActionType.Lead⟩ }

/-- BaseRound::first_trick: sets the trick size for a lone hand and chooses
the first leader, skipping the teammate of a lone maker. -/
def BaseRound.first_trick (r : BaseRound) : Option BaseRound :=
  match r.contract with
  | none => none
  | some contract =>
    let r1 := if contract.alone then { r with tricks := r.tricks.set_trick_size 3 } else r
    some (r1.next_trick (filter_seat contract r1.dealer.next))

/-- BaseRound::pass_top. -/
def BaseRound.pass_top (r : BaseRound) (seat : Seat) : BaseRound :=
  if seat = r.dealer then { r with next_action := some ⟨seat.next, ActionType.BidOther⟩ }
  else { r with next_action := some ⟨seat.next, ActionType.BidTop⟩ }

/-- BaseRound::bid_top: orders the top card into the hand of the dealer. -/
def BaseRound.bid_top (r : BaseRound) (maker : Seat) (suit : Suit) (alone : Bool) :
    Option (BaseRound × Option PlayerError) :=
  if suit = r.top.suit then
    let contract : Contract := ⟨maker, suit, alone⟩
    let r1 := { r with contract := some contract,
                       hands := r.hands.set r.dealer (r.hands.get r.dealer ++ [r.top]) }
    let r2? := if alone = true ∧ maker ≠ r1.dealer then r1.first_trick
               else some { r1 with next_action := some ⟨r1.dealer, ActionType.DealerDiscard⟩ }
    match r2? with
    | none => none
    | some r2 => some ({ r2 with events := r2.events ++ [Event.Call contract] }, none)
  else some (r, some (PlayerError.MustCallTopSuit r.top.suit))

/-- BaseRound::pass_other. -/
def BaseRound.pass_other (r : BaseRound) (seat : Seat) : BaseRound × Option PlayerError :=
  if seat = r.dealer then (r, some PlayerError.DealerMustBidOther)
  else ({ r with next_action := some ⟨seat.next, ActionType.BidOther⟩ }, none)

/-- BaseRound::bid_other. -/
def BaseRound.bid_other (r : BaseRound) (maker : Seat) (suit : Suit) (alone : Bool) :
    Option (BaseRound × Option PlayerError) :=
  if suit = r.top.suit then some (r, some (PlayerError.CannotCallTopSuit r.top.suit))
  else
    let contract : Contract := ⟨maker, suit, alone⟩
    let r1 : BaseRound := { r with contract := some contract }
    match r1.first_trick with
    | none => none
    | some r2 => some ({ r2 with events := r2.events ++ [Event.Call contract] }, none)

/-- BaseRound::find_card: position of the card in the hand of the seat. -/
def BaseRound.find_card (r : BaseRound) (seat : Seat) (card : Card) :
    Except PlayerError Nat :=
  match (r.hands.get seat).findIdx? (fun c => decide (c = card)) with
  | some index => Except.ok index
  | none => Except.error (PlayerError.CardNotHeld seat card)

/-- BaseRound::discard: removes the card at the index from the hand. -/
def BaseRound.discard (r : BaseRound) (seat : Seat) (index : Nat) : BaseRound :=
  { r with hands := r.hands.set seat ((r.hands.get seat).eraseIdx index) }

/-- BaseRound::dealer_discard; the source asserts the acting seat is the
dealer. -/
def BaseRound.dealer_discard (r : BaseRound) (dealer : Seat) (card : Card) :
    Option (BaseRound × Option PlayerError) :=
  if dealer = r.dealer then
    match r.find_card dealer card with
    | Except.error e => some (r, some e)
    | Except.ok index =>
      match (r.discard dealer index).first_trick with
      | none => none
      | some r2 => some (r2, none)
  else none

/-- BaseRound::lead. -/
def BaseRound.lead (r : BaseRound) (seat : Seat) (card : Card) :
    Option (BaseRound × Option PlayerError) :=
  match r.contract with
  | none => none
  | some contract =>
    match r.find_card seat card with
    | Except.error e => some (r, some e)
    | Except.ok index =>
      let r1 := r.discard seat index
      match r1.tricks.push (Trick.new contract.suit seat card) with
      | none => none
      | some tricks1 =>
        let r2 := { r1 with
          tricks := tricks1
          next_action := some ⟨filter_seat contract seat.next, ActionType.Follow⟩ }
        some (r2, none)

/-- BaseRound::follow. -/
def BaseRound.follow (r : BaseRound) (seat : Seat) (card : Card) :
    Option (BaseRound × Option PlayerError) :=
  match r.contract with
  | none => none
  | some contract =>
    match r.find_card seat card with
    | Except.error e => some (r, some e)
    | Except.ok index =>
      let trick_size := r.tricks.trick_size
      match r.tricks.tricks.getLast? with
      | none => none
      | some trick =>
        if trick.cards.length < trick_size then
          let hand := r.hands.get seat
          if !(trick.is_following_lead hand card) then
            some (r, some (PlayerError.MustFollowLead seat trick.lead.2))
          else
            let trick1 := trick.play seat card
            let r1 := { r with
              tricks := { r.tricks with tricks := r.tricks.tricks.dropLast ++ [trick1] }
              hands := r.hands.set seat (hand.eraseIdx index) }
            if trick1.cards.length < trick_size then
              let r2 := { r1 with
                next_action := some ⟨filter_seat contract seat.next, ActionType.Follow⟩ }
              some (r2, none)
            else
              let winner := trick1.best_play.1
              let r2 := { r1 with events := r1.events ++ [Event.Trick trick1] }
              match r2.outcome with
              | some oc =>
                let r3 := { r2 with
                  events := r2.events ++ [Event.Round oc]
                  next_action := none }
                some (r3, none)
              | none => some (r2.next_trick winner, none)
        else none

/-- Converts the helper results carrying PlayerError into RoundError. -/
def liftP (x : Option (BaseRound × Option PlayerError)) :
    Option (BaseRound × Option RoundError) :=
  x.map (fun p => (p.1, p.2.map RoundError.Player))

/-- BaseRound::apply: dispatch on the action type and payload shape. -/
def BaseRound.apply (r : BaseRound) (a : Action) : Option (BaseRound × Option RoundError) :=
  match a.action, a.data with
  | .BidTop, .Pass => some (r.pass_top a.seat, none)
  | .BidTop, .Call suit alone => liftP (r.bid_top a.seat suit alone)
  | .BidOther, .Pass => liftP (some (r.pass_other a.seat))
  | .BidOther, .Call suit alone => liftP (r.bid_other a.seat suit alone)
  | .DealerDiscard, .Card card => liftP (r.dealer_discard a.seat card)
  | .Lead, .Card card => liftP (r.lead a.seat card)
  | .Follow, .Card card => liftP (r.follow a.seat card)
  | _, _ => some (r, some RoundError.InvalidActionData)

/-- Round::apply_action for BaseRound: protocol checks, then dispatch. -/
def BaseRound.apply_action (r : BaseRound) (a : Action) :
    Option (BaseRound × Option RoundError) :=
  match r.next_action with
  | none => some (r, some RoundError.RoundOver)
  | some ea =>
    if ea.seat ≠ a.seat ∨ ea.action ≠ a.action then
      some (r, some (RoundError.ExpectActioned ea.seat ea.action))
    else r.apply a

/-- Runs a sequence of actions, succeeding only when every action is
accepted by apply_action. -/
def runB (r : BaseRound) : List Action → Option BaseRound
  | [] => some r
  | a :: rest =>
    match r.apply_action a with
    | some (r1, none) => runB r1 rest
    | _ => none

/-! ## Deck and round construction (src/deck.rs and src/euchre/round.rs) -/

/-- A deck of cards, from deck.rs. -/
structure Deck where
  cards : List Card
deriving DecidableEq

/-- Deck::take: splits off the last n cards (saturating below zero). -/
def Deck.take (d : Deck) (n : Nat) : List Card × Deck :=
  let idx := d.cards.length - n
  (d.cards.drop idx, ⟨d.cards.take idx⟩)

/-- Position of a suit in the derived Rust ordering (declaration order). -/
def suitIdx : Suit → Nat
  | .Club => 0
  | .Diamond => 1
  | .Spade => 2
  | .Heart => 3

/-- Position of a rank in the derived Rust ordering (declaration order). -/
def rankIdx : Rank → Nat
  | .Nine => 0
  | .Ten => 1
  | .Jack => 2
  | .Queen => 3
  | .King => 4
  | .Ace => 5

/-- The (suit, rank) sort key used by RoundConfig::canonicalize. -/
def cardKey (c : Card) : Nat := suitIdx c.suit * 8 + rankIdx c.rank

/-- Insertion into a list sorted by cardKey. -/
def insertByKey (c : Card) : List Card → List Card
  | [] => [c]
  | x :: xs => if cardKey c ≤ cardKey x then c :: x :: xs else x :: insertByKey c xs

/-- Sorts one hand by the (suit, rank) key; the keys of the cards of a
validated hand are pairwise distinct, so this agrees with the unstable sort
in the source. -/
def sortHand (h : List Card) : List Card := h.foldr insertByKey []

/-- RoundConfig::canonicalize: sorts every hand. -/
def RoundConfig.canonicalize (cfg : RoundConfig) : RoundConfig :=
  { cfg with hands := ⟨sortHand cfg.hands.north, sortHand cfg.hands.east,
                       sortHand cfg.hands.south, sortHand cfg.hands.west⟩ }

/-- Insertion into the seen set of RoundConfig::validate (a HashSet). -/
def hsInsert (s : List Card) (c : Card) : List Card :=
  if c ∈ s then s else s ++ [c]

/-- RoundConfig::validate: every hand has five cards and the twenty-one
cards in play are pairwise distinct. -/
def RoundConfig.validate (cfg : RoundConfig) : Except RoundError Unit :=
  let hands := [cfg.hands.north, cfg.hands.east, cfg.hands.south, cfg.hands.west]
  if hands.all (fun h => decide (h.length = 5)) then
    let seen := hands.foldl (fun s h => h.foldl hsInsert s) (hsInsert [] cfg.top)
    if seen.length = 21 then Except.ok () else Except.error RoundError.DuplicateCard
  else Except.error RoundError.InvalidHandSize

/-- The empty hand mapping used while dealing; RoundConfig::new assigns all
four seats, so every field is overwritten. -/
def Hands.empty : Hands := ⟨[], [], [], []⟩

/-- RoundConfig::new: deals five cards to each seat in clockwise order from
the dealer, upturns one card, validates and canonicalizes. -/
def RoundConfig.new (dealer : Seat) (deck : Deck) : Except RoundError RoundConfig :=
  if deck.cards.length < 24 then Except.error RoundError.IncompleteDeck
  else
    let step := fun (acc : Hands × Deck) (seat : Seat) =>
      let (h, d) := acc.2.take 5
      (acc.1.set seat h, d)
    let dealt := (dealer.next_n 4).foldl step (Hands.empty, deck)
    let top := (dealt.2.take 1).1.headD ⟨Rank.Nine, Suit.Club⟩
    let cfg : RoundConfig := ⟨dealer, dealt.1, top⟩
    match cfg.validate with
    | Except.error e => Except.error e
    | Except.ok _ => Except.ok cfg.canonicalize

/-- The twenty-one cards put in play by a deal: the four hands in deal
order followed by the top card. -/
def dealtCards (dealer : Seat) (deck : Deck) : List Card :=
  let step := fun (acc : Hands × Deck) (seat : Seat) =>
    let (h, d) := acc.2.take 5
    (acc.1.set seat h, d)
  let dealt := (dealer.next_n 4).foldl step (Hands.empty, deck)
  let top := (dealt.2.take 1).1.headD ⟨Rank.Nine, Suit.Club⟩
  dealt.1.get (dealer.next) ++ dealt.1.get (dealer.next.next) ++
    dealt.1.get (dealer.next.next.next) ++ dealt.1.get dealer ++ [top]

/-! ## Action log (src/euchre/round/log.rs)

The HashMap from node id to node is modelled as a list of nodes with
pairwise distinct ids; the HashMap from parent to child list is modelled as
an association list. Lookups scan for the first matching key, and both maps
are only ever extended at fresh keys, so the list models agree with the
map semantics of the source. -/

/-- A node in the action tree, from euchre/round/log.rs. -/
structure ActionNode where
  id : Nat
  parent : Option Nat
  action : Action
deriving DecidableEq

/-- Lookup in the id-to-node map. -/
def findNode : List ActionNode → Nat → Option ActionNode
  | [], _ => none
  | nd :: rest, i => if nd.id = i then some nd else findNode rest i

/-- HashMap::insert for the id-to-node map: replaces any binding of the
same id and appends the node. -/
def nodeInsert (m : List ActionNode) (nd : ActionNode) : List ActionNode :=
  m.filter (fun x => decide (x.id ≠ nd.id)) ++ [nd]

/-- Lookup in the parent-to-children map. -/
def assocFind : List (Option Nat × List Nat) → Option Nat → Option (List Nat)
  | [], _ => none
  | e :: rest, p => if e.1 = p then some e.2 else assocFind rest p

/-- HashMap::entry(parent).or_default().push(id): appends the id to the
child list of the first entry of the parent, creating the entry if absent. -/
def childPush (m : List (Option Nat × List Nat)) (p : Option Nat) (i : Nat) :
    List (Option Nat × List Nat) :=
  match m with
  | [] => [(p, [i])]
  | e :: rest => if e.1 = p then (e.1, e.2 ++ [i]) :: rest else e :: childPush rest p i

/-- A tree-structured log of actions, from euchre/round/log.rs. -/
structure Log where
  config : RoundConfig
  actions : List ActionNode
  children : List (Option Nat × List Nat)
  next_id : Nat
deriving DecidableEq

/-- Log::new. -/
def Log.new (config : RoundConfig) : Log :=
  { config := config, actions := [], children := [], next_id := 0 }

/-- The walk of Log::find_child over the child ids of the parent; the
source indexes the action map with each child id and panics when the id is
missing, modelled by the outer none. -/
def findChildAux (actions : List ActionNode) : List Nat → Action → Option (Option Nat)
  | [], _ => some none
  | i :: rest, a =>
    match findNode actions i with
    | none => none
    | some nd => if nd.action = a then some (some i) else findChildAux actions rest a

/-- Log::find_child: the first child of the parent holding an equal action. -/
def Log.find_child (log : Log) (parent : Option Nat) (action : Action) :
    Option (Option Nat) :=
  match assocFind log.children parent with
  | none => some none
  | some ids => findChildAux log.actions ids action

/-- Log::insert: returns the id of an existing equal child unchanged, or
allocates the next id; the source asserts that the allocated id was not
already bound, modelled by the outer none. -/
def Log.insert (log : Log) (parent : Option Nat) (action : Action) :
    Option (Log × Nat) :=
  match log.find_child parent action with
  | none => none
  | some (some id) => some (log, id)
  | some none =>
    let id := log.next_id
    if (findNode log.actions id).isSome then none
    else
      let log1 := { log with
        actions := nodeInsert log.actions ⟨id, parent, action⟩
        children := childPush log.children parent id
        next_id := id + 1 }
      some (log1, id)

/-- The parent-link walk of Log::backtrace, with fuel standing in for the
unbounded loop of the source; the walk of any log whose parent links
strictly decrease finishes within the fuel used by Log.backtrace. -/
def backtraceAux (log : Log) : Nat → Option Nat → Option (Except RoundError (List (Nat × Action)))
  | _, none => some (Except.ok [])
  | 0, some _ => none
  | fuel + 1, some id =>
    match findNode log.actions id with
    | none => some (Except.error (RoundError.InvalidLogId id))
    | some nd =>
      (backtraceAux log fuel nd.parent).map
        (fun res => res.map (fun trace => trace ++ [(nd.id, nd.action)]))

/-- Log::backtrace: the ordered path of (id, action) pairs from the root
to the id. -/
def Log.backtrace (log : Log) (id : Nat) :
    Option (Except RoundError (List (Nat × Action))) :=
  backtraceAux log (log.actions.length + 1) (some id)

/-- Insertion into a list of ids sorted ascending. -/
def insertId (i : Nat) : List Nat → List Nat
  | [] => [i]
  | x :: xs => if i ≤ x then i :: x :: xs else x :: insertId i xs

/-- Ascending sort of child ids, as done by the traversal before pushing
children onto the queue. -/
def sortIds (l : List Nat) : List Nat := l.foldr insertId []

/-- The queue walk of the preorder traversal iterator: pop an id, look its
node up (the source panics on a missing node or a missing sibling entry,
modelled by the outer none), and push its sorted children in front. -/
def traverseAux (log : Log) : Nat → List Nat → Option (List Nat)
  | 0, _ => none
  | _ + 1, [] => some []
  | fuel + 1, i :: queue =>
    match findNode log.actions i with
    | none => none
    | some nd =>
      match assocFind log.children nd.parent with
      | none => none
      | some _ =>
        let cs := (assocFind log.children (some i)).getD []
        (traverseAux log fuel (sortIds cs ++ queue)).map (fun rest => i :: rest)

/-- Log::traverse, restricted to the sequence of visited node ids; the
initial queue holds the children of the root in insertion order. -/
def Log.traverse (log : Log) : Option (List Nat) :=
  traverseAux log (log.actions.length + 1) ((assocFind log.children none).getD [])

/-- A serializable version of the log, from euchre/round/log.rs. -/
structure RawLog where
  config : RoundConfig
  actions : List ActionNode
deriving DecidableEq

/-- Insertion into a list of nodes sorted ascending by id. -/
def insertNodeById (nd : ActionNode) : List ActionNode → List ActionNode
  | [] => [nd]
  | x :: xs => if nd.id ≤ x.id then nd :: x :: xs else x :: insertNodeById nd xs

/-- Sort of the node list by id; the ids are pairwise distinct in every
log the source builds, so this agrees with the unstable sort. -/
def sortNodesById (l : List ActionNode) : List ActionNode := l.foldr insertNodeById []

/-- RawLog::from(Log): the nodes of the map, sorted by id. -/
def RawLog.ofLog (log : Log) : RawLog :=
  { config := log.config, actions := sortNodesById log.actions }

/-- Log::from(RawLog): rebuilds the maps node by node and sets the next id
to one past the running maximum id (which starts at zero). -/
def Log.ofRaw (raw : RawLog) : Log :=
  let step := fun (acc : Nat × List (Option Nat × List Nat) × List ActionNode)
      (nd : ActionNode) =>
    (if acc.1 < nd.id then nd.id else acc.1,
     childPush acc.2.1 nd.parent nd.id,
     nodeInsert acc.2.2 nd)
  let built := raw.actions.foldl step (0, [], [])
  { config := raw.config
    actions := built.2.2
    children := built.2.1
    next_id := built.1 + 1 }

/-! ## Logged round (src/euchre/round/logging.rs) -/

/-- A round that maintains a log of actions taken. -/
structure LoggingRound where
  round : BaseRound
  log : Log
  cursor : Option Nat
deriving DecidableEq

/-- LoggingRound::from(RoundConfig). -/
def LoggingRound.fromConfig (config : RoundConfig) : LoggingRound :=
  { log := Log.new config
    round := BaseRound.fromConfig config
    cursor := none }

/-- Round::apply_action for LoggingRound: delegate to the base round and,
only on success, record the action under the cursor and advance it. -/
def LoggingRound.apply_action (lr : LoggingRound) (a : Action) :
    Option (LoggingRound × Option RoundError) :=
  match lr.round.apply_action a with
  | none => none
  | some (r1, some e) => some ({ lr with round := r1 }, some e)
  | some (r1, none) =>
    match lr.log.insert lr.cursor a with
    | none => none
    | some (log1, id) =>
      some ({ round := r1, log := log1, cursor := some id }, none)

/-- LoggingRound::restart: clear the cursor and rebuild the base round
from the stored configuration. -/
def LoggingRound.restart (lr : LoggingRound) : LoggingRound :=
  { lr with cursor := none, round := BaseRound.fromConfig lr.log.config }

/-- The replay loop of LoggingRound::seek: apply each action of the
backtrace through the base round, advancing the cursor; an error aborts the
loop with the state reached so far. -/
def seekLoop : LoggingRound → List (Nat × Action) → Option (LoggingRound × Option RoundError)
  | lr, [] => some (lr, none)
  | lr, (id, a) :: rest =>
    match lr.round.apply_action a with
    | none => none
    | some (r1, some e) => some ({ lr with round := r1 }, some e)
    | some (r1, none) => seekLoop { lr with round := r1, cursor := some id } rest

/-- LoggingRound::seek: restart, then replay the backtrace of the target. -/
def LoggingRound.seek (lr : LoggingRound) (target : Option Nat) :
    Option (LoggingRound × Option RoundError) :=
  let lr0 := lr.restart
  match target with
  | none => some (lr0, none)
  | some id =>
    match lr0.log.backtrace id with
    | none => none
    | some (Except.error e) => some (lr0, some e)
    | some (Except.ok trace) => seekLoop lr0 trace

/-- Runs a sequence of actions through a logging round, succeeding only
when every action is accepted. -/
def runL (lr : LoggingRound) : List Action → Option LoggingRound
  | [] => some lr
  | a :: rest =>
    match lr.apply_action a with
    | some (lr1, none) => runL lr1 rest
    | _ => none

/-! ## Ancestor chains of log nodes, used by the traversal proofs -/

/-- The chain of ancestors of a node, walking parent links with fuel; for
a well-formed log every parent id is strictly smaller, so fuel equal to
the id suffices. -/
def ancChain (log : Log) : Nat → Nat → List Nat
  | 0, i => [i]
  | fuel + 1, i =>
    match findNode log.actions i with
    | none => [i]
    | some nd =>
      match nd.parent with
      | none => [i]
      | some p => i :: ancChain log fuel p

/-- The ancestors of a node (the node itself included). -/
def anc (log : Log) (i : Nat) : List Nat := ancChain log i i

/-! ## Structural invariants used by the proofs -/

/-- The ids bound in the action map of a log. -/
def logIds (log : Log) : List Nat := log.actions.map ActionNode.id

/-- Well-formedness of a log: distinct ids, distinct children keys, ids
below the allocation counter, parent links pointing at strictly smaller
existing ids, and a children map that is sound and complete for the
parent links of the action map. Every log built by Log::new, Log::insert
and the RawLog conversions satisfies this. -/
def LogWF (log : Log) : Prop :=
  (logIds log).Nodup ∧
  (log.children.map Prod.fst).Nodup ∧
  (∀ nd ∈ log.actions, nd.id < log.next_id) ∧
  (∀ nd ∈ log.actions, ∀ p ∈ nd.parent.toList, p < nd.id ∧ p ∈ logIds log) ∧
  (∀ e ∈ log.children, ∀ i ∈ e.2, (findNode log.actions i).map ActionNode.parent = some e.1) ∧
  (∀ nd ∈ log.actions, nd.id ∈ (assocFind log.children nd.parent).getD []) ∧
  (∀ e ∈ log.children, e.2.Nodup)

/-- A parent reference is the root or an existing id. -/
def parentValid (log : Log) (p : Option Nat) : Prop :=
  ∀ i ∈ p.toList, i ∈ logIds log

/-- The parent reference of the node at chain position j: the root for the
first node, otherwise the previous position. -/
def parentKey (j : Nat) : Option Nat := if j = 0 then none else some (j - 1)

/-- The action map of a log holding exactly one linear chain of actions,
numbered from j. -/
def chainNodes : Nat → List Action → List ActionNode
  | _, [] => []
  | j, a :: rest => ⟨j, parentKey j, a⟩ :: chainNodes (j + 1) rest

/-- The children map of a linear chain of n actions. -/
def chainChildren : Nat → List (Option Nat × List Nat)
  | 0 => []
  | n + 1 => chainChildren n ++ [(parentKey n, [n])]

/-- The log and cursor shape of a logging round that has applied exactly
the listed actions in order from a fresh round. -/
def ChainLog (cfg : RoundConfig) (applied : List Action) (lr : LoggingRound) : Prop :=
  lr.log.config = cfg ∧
  lr.log.actions = chainNodes 0 applied ∧
  lr.log.children = chainChildren applied.length ∧
  lr.log.next_id = applied.length ∧
  lr.cursor = parentKey applied.length

/-- Invariant of every reachable base round: the trick size is 3 or 4, at
most five tricks exist, every stored best index is in bounds, a pending
action implies an unresolved outcome, the bidding and discard phases carry
no tricks, and under a lone contract the teammate of the maker never holds
the pending Lead or Follow, never appears in a trick, and the trick size
is 3 once play has begun. -/
structure RInv (r : BaseRound) : Prop where
  size_ok : r.tricks.trick_size = 3 ∨ r.tricks.trick_size = 4
  len_ok : r.tricks.tricks.length ≤ 5
  best_ok : ∀ t ∈ r.tricks.tricks, t.best < t.cards.length
  out_ok : r.next_action.isSome = true → r.outcome = none
  bid_tricks : ∀ ea, r.next_action = some ea →
    (ea.action = ActionType.BidTop ∨ ea.action = ActionType.BidOther ∨
     ea.action = ActionType.DealerDiscard) → r.tricks.tricks = []
  alone_na : ∀ c, r.contract = some c → c.alone = true →
    ∀ ea, r.next_action = some ea →
      (ea.action = ActionType.Lead ∨ ea.action = ActionType.Follow) →
      ea.seat ≠ c.maker.opposite
  alone_plays : ∀ c, r.contract = some c → c.alone = true →
    ∀ t ∈ r.tricks.tricks, ∀ pc ∈ t.cards, pc.1 ≠ c.maker.opposite
  alone_size : ∀ c, r.contract = some c → c.alone = true →
    (r.tricks.tricks ≠ [] ∨
     (∃ ea, r.next_action = some ea ∧
        (ea.action = ActionType.Lead ∨ ea.action = ActionType.Follow))) →
    r.tricks.trick_size = 3

/-- The ids of the log that lie in the subtree of some queue element. -/
def remIds (log : Log) (queue : List Nat) : List Nat :=
  (logIds log).filter (fun j => queue.any (fun q => decide (q ∈ anc log j)))

/-- Two node ids are independent when neither lies on the ancestor chain of
the other (neither subtree contains the other node). -/
def indep (log : Log) (a b : Nat) : Prop := a ∉ anc log b ∧ b ∉ anc log a

/-- The (id, action) pairs of a linear chain of actions, numbered from j;
this is the backtrace of the chain's last node. -/
def chainTrace : Nat → List Action → List (Nat × Action)
  | _, [] => []
  | j, a :: rest => (j, a) :: chainTrace (j + 1) rest

instance (log : Log) : Decidable (LogWF log) := by
  unfold LogWF
  infer_instance

instance (log : Log) (p : Option Nat) : Decidable (parentValid log p) := by
  unfold parentValid
  infer_instance

/-! ## Concrete rounds used as witnesses -/

/-- Shorthand card constructor. -/
def cd (r : Rank) (s : Suit) : Card := ⟨r, s⟩

/-- Shorthand action constructor. -/
def act (s : Seat) (t : ActionType) (d : ActionData) : Action := ⟨s, t, d⟩

/-- Witness round A: dealer North, top card nine of clubs; East orders the
top card up and the North/South defenders take the first three tricks. -/
def cfgA : RoundConfig :=
  { dealer := Seat.North
    hands :=
      { north := [cd .Jack .Club, cd .Ace .Club, cd .Jack .Spade, cd .Ten .Heart, cd .Queen .Heart]
        east := [cd .Nine .Diamond, cd .Ten .Club, cd .King .Diamond, cd .Ace .Heart, cd .Nine .Spade]
        south := [cd .Ten .Diamond, cd .Nine .Heart, cd .Ace .Diamond, cd .King .Heart, cd .Queen .Spade]
        west := [cd .Queen .Diamond, cd .King .Club, cd .Queen .Club, cd .Ace .Spade, cd .Ten .Spade] }
    top := cd .Nine .Club }

/-- The actions of witness round A: an ordered-up club contract followed by
three defender tricks, which euchres the makers. -/
def actsA : List Action :=
  [ act .East .BidTop (.Call .Club false)
  , act .North .DealerDiscard (.Card (cd .Nine .Club))
  , act .East .Lead (.Card (cd .Nine .Diamond))
  , act .South .Follow (.Card (cd .Ten .Diamond))
  , act .West .Follow (.Card (cd .Queen .Diamond))
  , act .North .Follow (.Card (cd .Jack .Club))
  , act .North .Lead (.Card (cd .Ace .Club))
  , act .East .Follow (.Card (cd .Ten .Club))
  , act .South .Follow (.Card (cd .Nine .Heart))
  , act .West .Follow (.Card (cd .King .Club))
  , act .North .Lead (.Card (cd .Jack .Spade))
  , act .East .Follow (.Card (cd .King .Diamond))
  , act .South .Follow (.Card (cd .King .Heart))
  , act .West .Follow (.Card (cd .Queen .Club))
  ]

/-- Witness round B: dealer North, top card ace of spades; everyone passes
the top card and East then calls hearts alone and sweeps all five tricks,
with West (the teammate of East) sitting out. -/
def cfgB : RoundConfig :=
  { dealer := Seat.North
    hands :=
      { north := [cd .Nine .Spade, cd .Ten .Spade, cd .Jack .Spade, cd .Queen .Spade, cd .King .Spade]
        east := [cd .Jack .Heart, cd .Jack .Diamond, cd .Ace .Heart, cd .King .Heart, cd .Queen .Heart]
        south := [cd .Nine .Club, cd .Ten .Club, cd .Jack .Club, cd .Queen .Club, cd .King .Club]
        west := [cd .Nine .Diamond, cd .Ten .Diamond, cd .Queen .Diamond, cd .King .Diamond, cd .Ace .Diamond] }
    top := cd .Ace .Spade }

/-- The actions of witness round B: four passes, a lone-hand call of
hearts by East, and five three-card tricks all won by East. -/
def actsB : List Action :=
  [ act .East .BidTop .Pass
  , act .South .BidTop .Pass
  , act .West .BidTop .Pass
  , act .North .BidTop .Pass
  , act .East .BidOther (.Call .Heart true)
  , act .East .Lead (.Card (cd .Jack .Heart))
  , act .South .Follow (.Card (cd .Nine .Club))
  , act .North .Follow (.Card (cd .Nine .Spade))
  , act .East .Lead (.Card (cd .Jack .Diamond))
  , act .South .Follow (.Card (cd .Ten .Club))
  , act .North .Follow (.Card (cd .Ten .Spade))
  , act .East .Lead (.Card (cd .Ace .Heart))
  , act .South .Follow (.Card (cd .Jack .Club))
  , act .North .Follow (.Card (cd .Jack .Spade))
  , act .East .Lead (.Card (cd .King .Heart))
  , act .South .Follow (.Card (cd .Queen .Club))
  , act .North .Follow (.Card (cd .Queen .Spade))
  , act .East .Lead (.Card (cd .Queen .Heart))
  , act .South .Follow (.Card (cd .King .Club))
  , act .North .Follow (.Card (cd .King .Spade))
  ]


/-- The first fourteen actions of round B: the bidding plus three tricks. -/
def actsB14 : List Action := actsB.take 14

/-- A full 24-card euchre deck in a fixed order, used as a witness. -/
def deck24 : Deck :=
  ⟨[ cd .Nine .Club, cd .Ten .Club, cd .Jack .Club, cd .Queen .Club, cd .King .Club, cd .Ace .Club
   , cd .Nine .Diamond, cd .Ten .Diamond, cd .Jack .Diamond, cd .Queen .Diamond, cd .King .Diamond, cd .Ace .Diamond
   , cd .Nine .Spade, cd .Ten .Spade, cd .Jack .Spade, cd .Queen .Spade, cd .King .Spade, cd .Ace .Spade
   , cd .Nine .Heart, cd .Ten .Heart, cd .Jack .Heart, cd .Queen .Heart, cd .King .Heart, cd .Ace .Heart ]⟩

/-- A deck with too few cards, used as a witness. -/
def deckShort : Deck := ⟨[cd .Nine .Club, cd .Ten .Club, cd .Jack .Club]⟩

def aC10W : Action := act Seat.North ActionType.BidTop ActionData.Pass

def logC10W : Log :=
  { config := cfgB
    actions := [⟨1, none, aC10W⟩]
    children := [(none, [1])]
    next_id := 2 }

def aC8Wa : Action := act Seat.North ActionType.BidTop ActionData.Pass

def aC8Wb : Action := act Seat.East ActionType.BidTop ActionData.Pass

def logC8W : Log :=
  { config := cfgB
    actions := [⟨1, some 0, aC8Wb⟩, ⟨0, none, aC8Wa⟩]
    children := [(none, [0]), (some 0, [1])]
    next_id := 2 }

def aC7W : Action := act Seat.South ActionType.BidTop ActionData.Pass

def logC7W : Log :=
  { config := cfgB
    actions := [⟨0, none, aC8Wa⟩, ⟨1, some 0, aC8Wb⟩]
    children := [(none, [0]), (some 0, [1])]
    next_id := 2 }

/-! ## Theorems -/

/-- Claim C5: for every card, trump suit, and lead card, value is 7 to 13
for trump cards, where 9, 10, Q, K, A give 7 to 11, the same-color
off-suit Jack (the left bower, itself counted as trump by is_trump) gives
12, and the Jack of the trump suit gives 13, the strict maximum; value is
1 to 6 for non-trump cards matching the suit of the lead when the lead
itself is not trump; and value is 0 for all other cards. In particular
with trump Hearts the Jack of Diamonds has value 12 and the Jack of
Hearts has value 13. -/
theorem c5_card_value :
    (∀ (c : Card) (trump : Suit) (lead : Card),
      (c.is_trump trump = true → 7 ≤ c.value trump lead ∧ c.value trump lead ≤ 13) ∧
      (c.is_trump trump = true ∧ c.rank ≠ Rank.Jack →
        7 ≤ c.value trump lead ∧ c.value trump lead ≤ 11) ∧
      (c.rank = Rank.Jack ∧ c.suit ≠ trump ∧ c.suit.color = trump.color →
        c.is_trump trump = true ∧ c.value trump lead = 12) ∧
      (c.rank = Rank.Jack ∧ c.suit = trump → c.value trump lead = 13) ∧
      (¬(c.rank = Rank.Jack ∧ c.suit = trump) → c.value trump lead ≤ 12) ∧
      (c.is_trump trump = false ∧ c.suit = lead.suit ∧ lead.is_trump trump = false →
        1 ≤ c.value trump lead ∧ c.value trump lead ≤ 6) ∧
      (c.is_trump trump = false ∧ ¬(c.suit = lead.suit ∧ lead.is_trump trump = false) →
        c.value trump lead = 0)) ∧
    (∀ lead : Card,
      (Card.mk Rank.Jack Suit.Diamond).value Suit.Heart lead = 12 ∧
      (Card.mk Rank.Jack Suit.Heart).value Suit.Heart lead = 13) := by
  decide

/-- Witness for C5 at concrete inputs: the left and right bower values for
a hearts contract over a concrete lead. -/
theorem c5_card_value_witness :
    (Card.mk Rank.Jack Suit.Diamond).is_trump Suit.Heart = true ∧
    (Card.mk Rank.Jack Suit.Diamond).value Suit.Heart (cd .Nine .Spade) = 12 ∧
    (Card.mk Rank.Jack Suit.Heart).value Suit.Heart (cd .Nine .Spade) = 13 := by
  refine ⟨?_, ?_, ?_⟩
  · exact ((c5_card_value.1 (Card.mk Rank.Jack Suit.Diamond) Suit.Heart
      (cd .Nine .Spade)).2.2.1 (by decide)).1
  · exact (c5_card_value.2 (cd .Nine .Spade)).1
  · exact (c5_card_value.2 (cd .Nine .Spade)).2

/-- A rejected bid of the top suit leaves the round unchanged. -/
theorem bid_top_errEq (r : BaseRound) (m : Seat) (s : Suit) (al : Bool)
    (r1 : BaseRound) (e : PlayerError)
    (h : r.bid_top m s al = some (r1, some e)) : r1 = r := by
  unfold BaseRound.bid_top at h
  by_cases hs : s = r.top.suit
  · rw [if_pos hs] at h
    try dsimp only at h
    split at h
    · exact absurd h (by simp)
    · simp at h
  · rw [if_neg hs] at h
    simp at h
    exact h.1.symm

/-- A rejected pass leaves the round unchanged. -/
theorem pass_other_errEq (r : BaseRound) (s : Seat) (r1 : BaseRound) (e : PlayerError)
    (h : r.pass_other s = (r1, some e)) : r1 = r := by
  unfold BaseRound.pass_other at h
  by_cases hs : s = r.dealer
  · rw [if_pos hs] at h
    simp at h
    exact h.1.symm
  · rw [if_neg hs] at h
    simp at h

/-- A rejected alternative bid leaves the round unchanged. -/
theorem bid_other_errEq (r : BaseRound) (m : Seat) (s : Suit) (al : Bool)
    (r1 : BaseRound) (e : PlayerError)
    (h : r.bid_other m s al = some (r1, some e)) : r1 = r := by
  unfold BaseRound.bid_other at h
  by_cases hs : s = r.top.suit
  · rw [if_pos hs] at h
    simp at h
    exact h.1.symm
  · rw [if_neg hs] at h
    try dsimp only at h
    split at h
    · exact absurd h (by simp)
    · simp at h

/-- A rejected dealer discard leaves the round unchanged. -/
theorem dealer_discard_errEq (r : BaseRound) (d : Seat) (c : Card)
    (r1 : BaseRound) (e : PlayerError)
    (h : r.dealer_discard d c = some (r1, some e)) : r1 = r := by
  unfold BaseRound.dealer_discard at h
  by_cases hd : d = r.dealer
  · rw [if_pos hd] at h
    split at h
    · simp at h
      exact h.1.symm
    · split at h
      · exact absurd h (by simp)
      · simp at h
  · rw [if_neg hd] at h
    exact absurd h (by simp)

/-- A rejected lead leaves the round unchanged. -/
theorem lead_errEq (r : BaseRound) (s : Seat) (c : Card)
    (r1 : BaseRound) (e : PlayerError)
    (h : r.lead s c = some (r1, some e)) : r1 = r := by
  unfold BaseRound.lead at h
  split at h
  · exact absurd h (by simp)
  · split at h
    · simp at h
      exact h.1.symm
    · try dsimp only at h
      split at h
      · exact absurd h (by simp)
      · simp at h

/-- A rejected follow leaves the round unchanged; in particular a
must-follow rejection leaves every hand and the pending trick unchanged. -/
theorem follow_errEq (r : BaseRound) (s : Seat) (c : Card)
    (r1 : BaseRound) (e : PlayerError)
    (h : r.follow s c = some (r1, some e)) : r1 = r := by
  unfold BaseRound.follow at h
  split at h
  · exact absurd h (by simp)
  · split at h
    · simp at h
      exact h.1.symm
    · try dsimp only at h
      split at h
      · exact absurd h (by simp)
      · split at h
        · try dsimp only at h
          split at h
          · simp at h
            exact h.1.symm
          · try dsimp only at h
            split at h
            · simp at h
            · split at h
              · simp at h
              · simp [BaseRound.next_trick] at h
        · exact absurd h (by simp)

/-- Unpacking an error result of the PlayerError-to-RoundError lift. -/
theorem liftP_errEq (x : Option (BaseRound × Option PlayerError)) (r1 : BaseRound)
    (e : RoundError) (h : liftP x = some (r1, some e)) :
    ∃ pe, x = some (r1, some pe) ∧ e = RoundError.Player pe := by
  rcases x with _ | ⟨r2, pe⟩
  · simp [liftP] at h
  · rcases pe with _ | pe
    · simp [liftP] at h
    · simp [liftP] at h
      obtain ⟨h1, h2⟩ := h
      exact ⟨pe, by rw [h1], h2.symm⟩

/-- A rejected dispatch leaves the round unchanged. -/
theorem apply_errEq (r : BaseRound) (a : Action) (r1 : BaseRound) (e : RoundError)
    (h : r.apply a = some (r1, some e)) : r1 = r := by
  unfold BaseRound.apply at h
  split at h
  · simp at h
  · obtain ⟨pe, hx, _⟩ := liftP_errEq _ _ _ h
    exact bid_top_errEq r _ _ _ r1 pe hx
  · obtain ⟨pe, hx, _⟩ := liftP_errEq _ _ _ h
    rw [Option.some_inj] at hx
    exact pass_other_errEq r a.seat r1 pe hx
  · obtain ⟨pe, hx, _⟩ := liftP_errEq _ _ _ h
    exact bid_other_errEq r _ _ _ r1 pe hx
  · obtain ⟨pe, hx, _⟩ := liftP_errEq _ _ _ h
    exact dealer_discard_errEq r _ _ r1 pe hx
  · obtain ⟨pe, hx, _⟩ := liftP_errEq _ _ _ h
    exact lead_errEq r _ _ r1 pe hx
  · obtain ⟨pe, hx, _⟩ := liftP_errEq _ _ _ h
    exact follow_errEq r _ _ r1 pe hx
  · simp at h
    exact h.1.symm

/-- A rejected apply_action leaves the base round unchanged. -/
theorem apply_action_errEq (r : BaseRound) (a : Action) (r1 : BaseRound) (e : RoundError)
    (h : r.apply_action a = some (r1, some e)) : r1 = r := by
  unfold BaseRound.apply_action at h
  split at h
  · simp at h
    exact h.1.symm
  · split at h
    · simp at h
      exact h.1.symm
    · exact apply_errEq r a r1 e h

/-- Claim C6: whenever apply_action returns an error of any kind, the
round state (hands, contract, tricks, event queue, next_action) is exactly
as it was before the call, and on a LoggingRound the log and cursor are
also unchanged, so a rejected action is never recorded. -/
theorem c6_rejection_atomic :
    (∀ (r : BaseRound) (a : Action) (r1 : BaseRound) (e : RoundError),
        r.apply_action a = some (r1, some e) →
        r1 = r ∧ r1.hands = r.hands ∧ r1.contract = r.contract ∧
        r1.tricks = r.tricks ∧ r1.events = r.events ∧
        r1.next_action = r.next_action) ∧
    (∀ (lr : LoggingRound) (a : Action) (lr1 : LoggingRound) (e : RoundError),
        lr.apply_action a = some (lr1, some e) →
        lr1.log = lr.log ∧ lr1.cursor = lr.cursor ∧ lr1.round = lr.round) := by
  constructor
  · intro r a r1 e h
    have heq := apply_action_errEq r a r1 e h
    subst heq
    exact ⟨rfl, rfl, rfl, rfl, rfl, rfl⟩
  · intro lr a lr1 e h
    unfold LoggingRound.apply_action at h
    cases hb : lr.round.apply_action a with
    | none =>
      rw [hb] at h
      exact absurd h (by simp)
    | some p =>
      rcases p with ⟨r1, oe⟩
      rw [hb] at h
      cases oe with
      | none =>
        dsimp only at h
        split at h
        · exact absurd h (by simp)
        · simp at h
      | some e2 =>
        simp at h
        obtain ⟨hlr, _⟩ := h
        have heq := apply_action_errEq lr.round a r1 e2 hb
        rw [← hlr]
        exact ⟨rfl, rfl, heq⟩

/-- Witness for C6: in round A, after the first three actions South must
follow diamonds but attempts the queen of spades; the action is rejected
with a must-follow error and the state is unchanged. -/
theorem c6_rejection_atomic_witness :
    ∃ r r1 : BaseRound, ∃ e : RoundError,
      runB (BaseRound.fromConfig cfgA) (actsA.take 3) = some r ∧
      r.apply_action (act .South .Follow (.Card (cd .Queen .Spade))) = some (r1, some e) ∧
      r1 = r ∧ r1.hands = r.hands ∧ r1.tricks = r.tricks ∧
      r1.next_action = r.next_action := by
  have hrun : runB (BaseRound.fromConfig cfgA) (actsA.take 3) =
      some ((runB (BaseRound.fromConfig cfgA) (actsA.take 3)).getD
        (BaseRound.fromConfig cfgA)) := by decide
  have happ : ((runB (BaseRound.fromConfig cfgA) (actsA.take 3)).getD
        (BaseRound.fromConfig cfgA)).apply_action
      (act .South .Follow (.Card (cd .Queen .Spade))) =
      some ((runB (BaseRound.fromConfig cfgA) (actsA.take 3)).getD
          (BaseRound.fromConfig cfgA),
        some (RoundError.Player
          (PlayerError.MustFollowLead Seat.South (cd .Nine .Diamond)))) := by
    decide
  obtain ⟨h1, h2, _, h4, _, h6⟩ := c6_rejection_atomic.1 _ _ _ _ happ
  exact ⟨_, _, _, hrun, happ, h1, h2, h4, h6⟩

theorem hsInsert_fold (l : List Card) (s : List Card) (hs : s.Nodup) :
    (l.foldl hsInsert s).Nodup ∧ (l.foldl hsInsert s).toFinset = s.toFinset ∪ l.toFinset := by
  induction l generalizing s with
  | nil => simpa using hs
  | cons c rest ih =>
    have hstep : (hsInsert s c).Nodup ∧ (hsInsert s c).toFinset = insert c s.toFinset := by
      unfold hsInsert
      by_cases hc : c ∈ s
      · rw [if_pos hc]
        exact ⟨hs, by simp [Finset.insert_eq_self.mpr (List.mem_toFinset.mpr hc)]⟩
      · rw [if_neg hc]
        constructor
        · simpa [List.nodup_append] using ⟨hs, hc⟩
        · ext x
          simp [List.mem_toFinset, or_comm]
    obtain ⟨h1, h2⟩ := ih (hsInsert s c) hstep.1
    rw [List.foldl_cons]
    refine ⟨h1, ?_⟩
    rw [h2, hstep.2]
    ext x
    simp [or_assoc, or_comm, or_left_comm]

theorem nodup_iff_card (l : List Card) :
    l.Nodup ↔ l.toFinset.card = l.length := by
  constructor
  · exact fun h => List.toFinset_card_of_nodup h
  · intro h
    rw [List.card_toFinset] at h
    have hsub := List.dedup_sublist l
    have := List.Sublist.eq_of_length hsub h
    rw [← List.dedup_eq_self]
    exact this

theorem validate_char (cfg : RoundConfig)
    (h1 : cfg.hands.north.length = 5) (h2 : cfg.hands.east.length = 5)
    (h3 : cfg.hands.south.length = 5) (h4 : cfg.hands.west.length = 5) :
    cfg.validate = (if (cfg.top :: (cfg.hands.north ++ cfg.hands.east ++
        cfg.hands.south ++ cfg.hands.west)).Nodup
      then Except.ok () else Except.error RoundError.DuplicateCard) := by
  unfold RoundConfig.validate
  rw [if_pos (by simp [h1, h2, h3, h4])]
  have hfold : [cfg.hands.north, cfg.hands.east, cfg.hands.south, cfg.hands.west].foldl
      (fun s h => h.foldl hsInsert s) (hsInsert [] cfg.top) =
      (cfg.hands.north ++ cfg.hands.east ++ cfg.hands.south ++ cfg.hands.west).foldl
        hsInsert [cfg.top] := by
    simp [hsInsert, List.foldl_append]
  rw [hfold]
  obtain ⟨hnd, hfs⟩ := hsInsert_fold
    (cfg.hands.north ++ cfg.hands.east ++ cfg.hands.south ++ cfg.hands.west)
    [cfg.top] (by simp)
  set L := cfg.hands.north ++ cfg.hands.east ++ cfg.hands.south ++ cfg.hands.west with hL
  have hlen : (cfg.top :: L).length = 21 := by
    simp [hL, h1, h2, h3, h4]
  have hcard : (L.foldl hsInsert [cfg.top]).length = (cfg.top :: L).toFinset.card := by
    rw [List.toFinset_card_of_nodup hnd |>.symm, hfs]
    congr 1
    ext x
    simp
  by_cases hnodup : (cfg.top :: L).Nodup
  · rw [if_pos hnodup]
    have : (cfg.top :: L).toFinset.card = 21 := by
      rw [(nodup_iff_card _).mp hnodup, hlen]
    rw [if_pos (by rw [hcard, this])]
  · rw [if_neg hnodup]
    have : ¬((cfg.top :: L).toFinset.card = 21) := by
      intro hc
      exact hnodup ((nodup_iff_card _).mpr (by rw [hc, hlen]))
    rw [if_neg (by rw [hcard]; exact this)]





theorem deck_take_spec (d : Deck) (n : Nat) (h : n ≤ d.cards.length) :
    (d.take n).1.length = n ∧ (d.take n).2.cards.length = d.cards.length - n := by
  unfold Deck.take
  constructor
  · simp only [List.length_drop]
    omega
  · simp only [List.length_take]
    omega

theorem new_char (dealer : Seat) (deck : Deck) (h : 24 ≤ deck.cards.length)
    (c1 c2 c3 c4 ct : List Card) (d1 d2 d3 d4 d5 : Deck)
    (h1 : deck.take 5 = (c1, d1)) (h2 : d1.take 5 = (c2, d2))
    (h3 : d2.take 5 = (c3, d3)) (h4 : d3.take 5 = (c4, d4))
    (h5 : d4.take 1 = (ct, d5)) :
    RoundConfig.new dealer deck =
      (match (RoundConfig.mk dealer
          ((((Hands.empty.set dealer.next c1).set dealer.next.next c2).set
            dealer.next.next.next c3).set dealer.next.next.next.next c4)
          (ct.headD (cd .Nine .Club))).validate with
       | Except.error e => Except.error e
       | Except.ok _ => Except.ok (RoundConfig.mk dealer
          ((((Hands.empty.set dealer.next c1).set dealer.next.next c2).set
            dealer.next.next.next c3).set dealer.next.next.next.next c4)
          (ct.headD (cd .Nine .Club))).canonicalize) := by
  unfold RoundConfig.new
  rw [if_neg (by omega)]
  simp only [Seat.next_n, List.foldl_cons, List.foldl_nil]
  try dsimp only
  rw [h1]
  try dsimp only
  rw [h2]
  try dsimp only
  rw [h3]
  try dsimp only
  rw [h4]
  try dsimp only
  rw [h5]
  simp [cd]

theorem nodup_iff_of_toFinset_len (l1 l2 : List Card) (hlen : l1.length = l2.length)
    (hfs : l1.toFinset = l2.toFinset) : l1.Nodup ↔ l2.Nodup := by
  rw [nodup_iff_card, nodup_iff_card, hfs, hlen]



theorem dealtCards_char (dealer : Seat) (deck : Deck)
    (c1 c2 c3 c4 ct : List Card) (d1 d2 d3 d4 d5 : Deck)
    (h1 : deck.take 5 = (c1, d1)) (h2 : d1.take 5 = (c2, d2))
    (h3 : d2.take 5 = (c3, d3)) (h4 : d3.take 5 = (c4, d4))
    (h5 : d4.take 1 = (ct, d5)) :
    dealtCards dealer deck = c1 ++ c2 ++ c3 ++ c4 ++ [ct.headD (cd .Nine .Club)] := by
  unfold dealtCards
  simp only [Seat.next_n, List.foldl_cons, List.foldl_nil]
  try dsimp only
  rw [h1]
  try dsimp only
  rw [h2]
  try dsimp only
  rw [h3]
  try dsimp only
  rw [h4]
  try dsimp only
  rw [h5]
  cases dealer <;> simp [Hands.set, Hands.get, Hands.empty, Seat.next, cd]

set_option maxHeartbeats 2000000 in
theorem c9_pieces (dealer : Seat) (deck : Deck) (hge : 24 ≤ deck.cards.length) :
    ((dealtCards dealer deck).Nodup → ∃ cfg, RoundConfig.new dealer deck = Except.ok cfg) ∧
    (¬(dealtCards dealer deck).Nodup →
      RoundConfig.new dealer deck = Except.error RoundError.DuplicateCard) := by
  rcases h1 : deck.take 5 with ⟨c1, d1⟩
  rcases h2 : d1.take 5 with ⟨c2, d2⟩
  rcases h3 : d2.take 5 with ⟨c3, d3⟩
  rcases h4 : d3.take 5 with ⟨c4, d4⟩
  rcases h5 : d4.take 1 with ⟨ct, d5⟩
  have l1 := deck_take_spec deck 5 (by omega)
  rw [h1] at l1
  try dsimp only at l1
  obtain ⟨lc1, ld1⟩ := l1
  have l2 := deck_take_spec d1 5 (by omega)
  rw [h2] at l2
  try dsimp only at l2
  obtain ⟨lc2, ld2⟩ := l2
  have l3 := deck_take_spec d2 5 (by omega)
  rw [h3] at l3
  try dsimp only at l3
  obtain ⟨lc3, ld3⟩ := l3
  have l4 := deck_take_spec d3 5 (by omega)
  rw [h4] at l4
  try dsimp only at l4
  obtain ⟨lc4, ld4⟩ := l4
  have l5 := deck_take_spec d4 1 (by omega)
  rw [h5] at l5
  try dsimp only at l5
  obtain ⟨lct, _⟩ := l5
  have hnew := new_char dealer deck hge c1 c2 c3 c4 ct d1 d2 d3 d4 d5 h1 h2 h3 h4 h5
  have hdc := dealtCards_char dealer deck c1 c2 c3 c4 ct d1 d2 d3 d4 d5 h1 h2 h3 h4 h5
  rw [hdc]
  cases dealer <;>
  · simp only [Seat.next] at hnew
    rw [validate_char _ (by simp [Hands.set, Hands.empty, lc1, lc2, lc3, lc4])
      (by simp [Hands.set, Hands.empty, lc1, lc2, lc3, lc4])
      (by simp [Hands.set, Hands.empty, lc1, lc2, lc3, lc4])
      (by simp [Hands.set, Hands.empty, lc1, lc2, lc3, lc4])] at hnew
    simp only [Hands.set, Hands.empty] at hnew
    split at hnew
    · rename_i e heq
      split at heq
      · exact absurd heq (by simp)
      · rename_i hcond
        injection heq with he
        subst he
        constructor
        · intro hnd
          exact absurd ((nodup_iff_of_toFinset_len _ _
            (by simp [lc1, lc2, lc3, lc4]) (by ext x; simp; tauto)).mpr hnd) hcond
        · intro _
          exact hnew
    · rename_i a heq
      split at heq
      · rename_i hcond
        constructor
        · intro _
          exact ⟨_, hnew⟩
        · intro hnd
          exact absurd ((nodup_iff_of_toFinset_len _ _
            (by simp [lc1, lc2, lc3, lc4]) (by ext x; simp; tauto)).mp hcond) hnd
      · exact absurd heq (by simp)

/-- Claim C9: RoundConfig::new returns an incomplete-deck error for every
deck with fewer than 24 cards; for every deck of at least 24 cards it
deals four 5-card hands plus one top card and succeeds exactly when those
21 cards are pairwise distinct, returning a duplicate-card error on any
collision, never silently truncating. -/
theorem c9_round_config_new :
    ∀ (dealer : Seat) (deck : Deck),
      (deck.cards.length < 24 →
        RoundConfig.new dealer deck = Except.error RoundError.IncompleteDeck) ∧
      (24 ≤ deck.cards.length →
        ((dealtCards dealer deck).Nodup →
          ∃ cfg, RoundConfig.new dealer deck = Except.ok cfg) ∧
        (¬(dealtCards dealer deck).Nodup →
          RoundConfig.new dealer deck = Except.error RoundError.DuplicateCard)) := by
  intro dealer deck
  refine ⟨?_, fun hge => c9_pieces dealer deck hge⟩
  intro hlt
  unfold RoundConfig.new
  rw [if_pos hlt]

/-- Witness for C9: a three-card deck is rejected as incomplete, and the
full ordered 24-card deck deals successfully. -/
theorem c9_round_config_new_witness :
    RoundConfig.new Seat.North deckShort = Except.error RoundError.IncompleteDeck ∧
    (∃ cfg, RoundConfig.new Seat.North deck24 = Except.ok cfg) := by
  constructor
  · exact (c9_round_config_new Seat.North deckShort).1 (by decide)
  · exact ((c9_round_config_new Seat.North deck24).2 (by decide)).1 (by decide)


theorem seat_next_ne : ∀ s : Seat, s.next ≠ s := by decide

theorem filter_seat_ne (c : Contract) (hal : c.alone = true) (s : Seat) :
    filter_seat c s ≠ c.maker.opposite := by
  unfold filter_seat
  split
  · rename_i hcond
    rw [hcond.2]
    exact seat_next_ne c.maker.opposite
  · rename_i hcond
    intro heq
    exact hcond ⟨hal, heq⟩

theorem play_cards (t : Trick) (s : Seat) (c : Card) :
    (t.play s c).cards = t.cards ++ [(s, c)] := by
  unfold Trick.play
  dsimp only
  split <;> rfl

theorem play_len (t : Trick) (s : Seat) (c : Card) :
    (t.play s c).cards.length = t.cards.length + 1 := by
  rw [play_cards]
  simp

theorem play_best (t : Trick) (s : Seat) (c : Card) :
    (t.play s c).best = t.best ∨ (t.play s c).best = t.cards.length := by
  unfold Trick.play
  dsimp only
  split
  · right; rfl
  · left; rfl

theorem best_play_mem (t : Trick) (h : t.best < t.cards.length) :
    t.best_play ∈ t.cards := by
  unfold Trick.best_play
  rw [List.getD_eq_getElem t.cards defaultPlay h]
  exact List.getElem_mem h

theorem win_count_snoc (ts : List Trick) (size : Nat) (t : Trick) (team : Team) :
    Tricks.win_count ⟨ts ++ [t], size⟩ team =
      Tricks.win_count ⟨ts, size⟩ team +
        (if t.cards.length = size ∧ Team.ofSeat t.best_play.1 = team then 1 else 0) := by
  unfold Tricks.win_count
  dsimp only
  rw [List.filter_append]
  simp only [List.length_append, List.filter_cons, List.filter_nil]
  split
  · rename_i hcond
    simp only [Bool.and_eq_true, decide_eq_true_eq] at hcond
    rw [if_pos hcond]
    simp
  · rename_i hcond
    simp only [Bool.and_eq_true, decide_eq_true_eq] at hcond
    rw [if_neg hcond]
    simp

theorem outcome_of_counts (r r1 : BaseRound) (hc : r1.contract = r.contract)
    (hw : ∀ team, r1.tricks.win_count team = r.tricks.win_count team) :
    r1.outcome = r.outcome := by
  unfold BaseRound.outcome
  rw [hc]
  cases r.contract with
  | none => rfl
  | some c => simp only [hw]

theorem outcome_empty (r : BaseRound) (h : r.tricks.tricks = []) : r.outcome = none := by
  unfold BaseRound.outcome
  cases hc : r.contract with
  | none => rfl
  | some c =>
    have hz : ∀ team, r.tricks.win_count team = 0 := by
      intro team
      unfold Tricks.win_count
      rw [h]
      rfl
    simp [hz]


/-- RInv ignores the event queue. -/
theorem inv_events (r : BaseRound) (E : List Event) (hinv : RInv r) :
    RInv { r with events := E } :=
  ⟨hinv.size_ok, hinv.len_ok, hinv.best_ok, hinv.out_ok, hinv.bid_tricks,
   hinv.alone_na, hinv.alone_plays, hinv.alone_size⟩

/-- RInv for a state with no tricks whose pending action is a bidding or
discard step. -/
theorem inv_nonplay (r : BaseRound) (htr : r.tricks.tricks = [])
    (hsz : r.tricks.trick_size = 3 ∨ r.tricks.trick_size = 4)
    (s1 : Seat) (X : ActionType) (hna : r.next_action = some ⟨s1, X⟩)
    (hX : X = ActionType.BidTop ∨ X = ActionType.BidOther ∨ X = ActionType.DealerDiscard) :
    RInv r := by
  constructor
  · exact hsz
  · simp [htr]
  · intro t ht
    rw [htr] at ht
    exact absurd ht (by simp)
  · intro _
    exact outcome_empty _ htr
  · intro ea h1 h2
    exact htr
  · intro c hc hal ea h1 h2
    rw [hna] at h1
    injection h1 with h1
    subst h1
    rcases hX with hX | hX | hX <;> rw [hX] at h2 <;>
      rcases h2 with h2 | h2 <;> exact absurd h2 (by simp)
  · intro c hc hal t ht
    rw [htr] at ht
    exact absurd ht (by simp)
  · intro c hc hal hdis
    rcases hdis with hne | ⟨ea, h1, h2⟩
    · exact absurd htr hne
    · rw [hna] at h1
      injection h1 with h1
      subst h1
      rcases hX with hX | hX | hX <;> rw [hX] at h2 <;>
        rcases h2 with h2 | h2 <;> exact absurd h2 (by simp)

/-- RInv for a state with no tricks that is about to lead the first trick. -/
theorem inv_lead_start (r : BaseRound) (c : Contract) (hc : r.contract = some c)
    (htr : r.tricks.tricks = [])
    (hsz : r.tricks.trick_size = 3 ∨ r.tricks.trick_size = 4)
    (hals : c.alone = true → r.tricks.trick_size = 3)
    (s1 : Seat) (hs1 : c.alone = true → s1 ≠ c.maker.opposite) :
    RInv { r with next_action := some ⟨s1, ActionType.Lead⟩ } := by
  constructor
  · exact hsz
  · show r.tricks.tricks.length ≤ 5
    rw [htr]
    simp
  · intro t ht
    have ht1 : t ∈ r.tricks.tricks := ht
    rw [htr] at ht1
    exact absurd ht1 (by simp)
  · intro _
    exact outcome_empty _ htr
  · intro ea h1 h2
    exact htr
  · intro c1 hc1 hal1 ea h1 h2
    have hc2 : r.contract = some c1 := hc1
    rw [hc] at hc2
    injection hc2 with hc2
    subst hc2
    injection h1 with h1
    subst h1
    exact hs1 hal1
  · intro c1 hc1 hal1 t ht
    have ht1 : t ∈ r.tricks.tricks := ht
    rw [htr] at ht1
    exact absurd ht1 (by simp)
  · intro c1 hc1 hal1 hdis
    have hc2 : r.contract = some c1 := hc1
    rw [hc] at hc2
    injection hc2 with hc2
    subst hc2
    exact hals hal1

/-- RInv after first_trick on a state with no tricks. -/
theorem first_trick_inv (r r2 : BaseRound) (h : r.first_trick = some r2)
    (htr : r.tricks.tricks = [])
    (hsz : r.tricks.trick_size = 3 ∨ r.tricks.trick_size = 4) : RInv r2 := by
  unfold BaseRound.first_trick at h
  cases hc : r.contract with
  | none =>
    rw [hc] at h
    exact absurd h (by simp)
  | some c =>
    rw [hc] at h
    dsimp only at h
    cases hal : c.alone with
    | false =>
      rw [hal] at h
      simp only [Bool.false_eq_true, if_false] at h
      injection h with h
      subst h
      simp only [BaseRound.next_trick]
      exact inv_lead_start r c hc htr hsz
        (fun hal1 => by rw [hal1] at hal; exact absurd hal (by simp))
        _ (fun hal1 => filter_seat_ne c hal1 _)
    | true =>
      rw [hal] at h
      simp only [if_true] at h
      injection h with h
      subst h
      simp only [BaseRound.next_trick]
      exact inv_lead_start
        { r with contract := some c, tricks := r.tricks.set_trick_size 3 } c rfl htr
        (Or.inl rfl) (fun _ => rfl) _ (fun hal1 => filter_seat_ne c hal1 _)


/-- RInv is preserved by a successful lead. -/
theorem lead_inv (r : BaseRound) (hinv : RInv r) (s : Seat) (card : Card)
    (hea : r.next_action = some ⟨s, ActionType.Lead⟩)
    (r1 : BaseRound) (h : r.lead s card = some (r1, none)) : RInv r1 := by
  unfold BaseRound.lead at h
  cases hc : r.contract with
  | none =>
    rw [hc] at h
    exact absurd h (by simp)
  | some c =>
    rw [hc] at h
    cases hf : r.find_card s card with
    | error e =>
      rw [hf] at h
      simp at h
    | ok index =>
      rw [hf] at h
      dsimp only at h
      cases hp : (r.discard s index).tricks.push (Trick.new c.suit s card) with
      | none =>
        rw [hp] at h
        exact absurd h (by simp)
      | some tricks1 =>
        rw [hp] at h
        simp only [Option.some_inj, Prod.mk.injEq] at h
        obtain ⟨h, -⟩ := h
        subst h
        unfold Tricks.push at hp
        split at hp
        case isFalse => exact absurd hp (by simp)
        case isTrue hlen =>
        injection hp with hp
        subst hp
        have hlen5 : r.tricks.tricks.length < 5 := hlen
        constructor
        · exact hinv.size_ok
        · show (r.tricks.tricks ++ [Trick.new c.suit s card]).length ≤ 5
          rw [List.length_append]
          simp only [List.length_singleton]
          omega
        · intro t ht
          have ht1 : t ∈ r.tricks.tricks ++ [Trick.new c.suit s card] := ht
          rcases List.mem_append.mp ht1 with ht2 | ht2
          · exact hinv.best_ok t ht2
          · rw [List.mem_singleton.mp ht2]
            show (Trick.new c.suit s card).best < (Trick.new c.suit s card).cards.length
            simp [Trick.new]
        · intro _
          refine Eq.trans (b := r.outcome) ?_ (hinv.out_ok (by rw [hea]; rfl))
          apply outcome_of_counts
          · rfl
          · intro team
            show Tricks.win_count ⟨r.tricks.tricks ++ [Trick.new c.suit s card],
                r.tricks.trick_size⟩ team = r.tricks.win_count team
            rw [win_count_snoc, if_neg ?_]
            · simp
            · rintro ⟨h1, -⟩
              have hone : (Trick.new c.suit s card).cards.length = 1 := rfl
              rw [hone] at h1
              rcases hinv.size_ok with hs4 | hs4 <;> rw [hs4] at h1 <;> exact absurd h1 (by simp)
        · intro ea1 h1 h2
          injection h1 with h1
          subst h1
          rcases h2 with h2 | h2 | h2 <;> exact absurd h2 (by simp)
        · intro c1 hc1 hal1 ea1 h1 h2
          have hc2 : c1 = c := by
            have hx : r.contract = some c1 := hc1
            rw [hc] at hx
            exact (Option.some_inj.mp hx).symm
          rw [hc2] at hal1 ⊢
          injection h1 with h1
          subst h1
          exact filter_seat_ne c hal1 _
        · intro c1 hc1 hal1 t ht pc hpc
          have hc2 : c1 = c := by
            have hx : r.contract = some c1 := hc1
            rw [hc] at hx
            exact (Option.some_inj.mp hx).symm
          rw [hc2] at hal1 ⊢
          have ht1 : t ∈ r.tricks.tricks ++ [Trick.new c.suit s card] := ht
          rcases List.mem_append.mp ht1 with ht2 | ht2
          · exact hinv.alone_plays c hc hal1 t ht2 pc hpc
          · rw [List.mem_singleton.mp ht2] at hpc
            have : pc = (s, card) := List.mem_singleton.mp hpc
            rw [this]
            exact hinv.alone_na c hc hal1 ⟨s, ActionType.Lead⟩ hea (Or.inl rfl)
        · intro c1 hc1 hal1 _
          have hc2 : c1 = c := by
            have hx : r.contract = some c1 := hc1
            rw [hc] at hx
            exact (Option.some_inj.mp hx).symm
          rw [hc2] at hal1
          show r.tricks.trick_size = 3
          exact hinv.alone_size c hc hal1 (Or.inr ⟨⟨s, ActionType.Lead⟩, hea, Or.inl rfl⟩)


/-- RInv is preserved by a successful follow. -/
theorem follow_inv (r : BaseRound) (hinv : RInv r) (s : Seat) (card : Card)
    (hea : r.next_action = some ⟨s, ActionType.Follow⟩)
    (r1 : BaseRound) (h : r.follow s card = some (r1, none)) : RInv r1 := by
  unfold BaseRound.follow at h
  cases hc : r.contract with
  | none =>
    rw [hc] at h
    exact absurd h (by simp)
  | some c =>
    rw [hc] at h
    cases hf : r.find_card s card with
    | error e =>
      rw [hf] at h
      simp at h
    | ok index =>
      rw [hf] at h
      dsimp only at h
      cases hlast : r.tricks.tricks.getLast? with
      | none =>
        rw [hlast] at h
        exact absurd h (by simp)
      | some trick =>
        rw [hlast] at h
        try dsimp only at h
        by_cases hlt : trick.cards.length < r.tricks.trick_size
        case neg =>
          rw [if_neg hlt] at h
          exact absurd h (by simp)
        case pos =>
        rw [if_pos hlt] at h
        try dsimp only at h
        split at h
        case isTrue => simp at h
        case isFalse hfol =>
        try dsimp only at h
        -- shared facts about the updated trick list
        have hne : r.tricks.tricks ≠ [] := by
          intro he
          rw [he] at hlast
          exact absurd hlast (by simp)
        have hdecomp : r.tricks.tricks = r.tricks.tricks.dropLast ++ [trick] := by
          have hgl := List.getLast?_eq_getLast r.tricks.tricks hne
          rw [hgl] at hlast
          injection hlast with hlast
          rw [← hlast]
          exact (List.dropLast_append_getLast hne).symm
        have htm : trick ∈ r.tricks.tricks := by
          rw [hdecomp]
          exact List.mem_append.mpr (Or.inr (by simp))
        have hdl : ∀ t ∈ r.tricks.tricks.dropLast, t ∈ r.tricks.tricks := by
          intro t ht
          rw [hdecomp]
          exact List.mem_append.mpr (Or.inl ht)
        have hlen0 : 0 < r.tricks.tricks.length := List.length_pos.mpr hne
        have hbest1 : (trick.play s card).best < (trick.play s card).cards.length := by
          rw [play_len]
          rcases play_best trick s card with hb | hb <;> rw [hb]
          · have := hinv.best_ok trick htm
            omega
          · omega
        have hplays1 : ∀ c1, r.contract = some c1 → c1.alone = true →
            ∀ pc ∈ (trick.play s card).cards, pc.1 ≠ c1.maker.opposite := by
          intro c1 hc1 hal1 pc hpc
          rw [play_cards] at hpc
          rcases List.mem_append.mp hpc with hp2 | hp2
          · exact hinv.alone_plays c1 hc1 hal1 trick htm pc hp2
          · rw [List.mem_singleton.mp hp2]
            exact hinv.alone_na c1 hc1 hal1 ⟨s, ActionType.Follow⟩ hea (Or.inr rfl)
        have hT : r.tricks =
            Tricks.mk (r.tricks.tricks.dropLast ++ [trick]) r.tricks.trick_size :=
          congrArg (fun l => Tricks.mk l r.tricks.trick_size) hdecomp
        have hsize1 : r.tricks.trick_size = 3 ∨ r.tricks.trick_size = 4 := hinv.size_ok
        have hlen1 : (r.tricks.tricks.dropLast ++ [trick.play s card]).length ≤ 5 := by
          have := hinv.len_ok
          rw [List.length_append, List.length_singleton, List.length_dropLast]
          omega
        have hbestall : ∀ t ∈ r.tricks.tricks.dropLast ++ [trick.play s card],
            t.best < t.cards.length := by
          intro t ht
          rcases List.mem_append.mp ht with ht2 | ht2
          · exact hinv.best_ok t (hdl t ht2)
          · rw [List.mem_singleton.mp ht2]
            exact hbest1
        have hplaysall : ∀ c1, r.contract = some c1 → c1.alone = true →
            ∀ t ∈ r.tricks.tricks.dropLast ++ [trick.play s card],
            ∀ pc ∈ t.cards, pc.1 ≠ c1.maker.opposite := by
          intro c1 hc1 hal1 t ht pc hpc
          rcases List.mem_append.mp ht with ht2 | ht2
          · exact hinv.alone_plays c1 hc1 hal1 t (hdl t ht2) pc hpc
          · rw [List.mem_singleton.mp ht2] at hpc
            exact hplays1 c1 hc1 hal1 pc hpc
        split at h
        case isTrue hfull =>
          -- the trick is still short: keep following
          simp only [Option.some_inj, Prod.mk.injEq] at h
          obtain ⟨h, -⟩ := h
          subst h
          constructor
          · exact hsize1
          · exact hlen1
          · exact hbestall
          · intro _
            refine Eq.trans (b := r.outcome) ?_ (hinv.out_ok (by rw [hea]; rfl))
            apply outcome_of_counts
            · exact hc.symm ▸ rfl
            · intro team
              show Tricks.win_count ⟨r.tricks.tricks.dropLast ++ [trick.play s card],
                  r.tricks.trick_size⟩ team = r.tricks.win_count team
              have hne1 : ¬((trick.play s card).cards.length = r.tricks.trick_size ∧
                  Team.ofSeat (trick.play s card).best_play.1 = team) := by
                rintro ⟨h1, -⟩
                omega
              have hne2 : ¬(trick.cards.length = r.tricks.trick_size ∧
                  Team.ofSeat trick.best_play.1 = team) := by
                rintro ⟨h1, -⟩
                omega
              rw [win_count_snoc]
              conv_rhs => rw [hT]
              rw [win_count_snoc, if_neg hne1, if_neg hne2]
          · intro ea1 h1 h2
            injection h1 with h1
            subst h1
            rcases h2 with h2 | h2 | h2 <;> exact absurd h2 (by simp)
          · intro c1 hc1 hal1 ea1 h1 h2
            have hcc : r.contract = some c1 := by rw [hc]; exact hc1
            have heq : c = c1 := Option.some_inj.mp (hc.symm.trans hcc)
            injection h1 with h1
            subst h1
            rw [← heq] at hal1 ⊢
            exact filter_seat_ne c hal1 _
          · intro c1 hc1 hal1 t ht pc hpc
            have hcc : r.contract = some c1 := by rw [hc]; exact hc1
            exact hplaysall c1 hcc hal1 t ht pc hpc
          · intro c1 hc1 hal1 _
            have hcc : r.contract = some c1 := by rw [hc]; exact hc1
            show r.tricks.trick_size = 3
            exact hinv.alone_size c1 hcc hal1
              (Or.inr ⟨⟨s, ActionType.Follow⟩, hea, Or.inr rfl⟩)
        case isFalse hfull =>
          -- the trick is complete: check the outcome
          split at h
          case h_1 oc houtc =>
            simp only [Option.some_inj, Prod.mk.injEq] at h
            obtain ⟨h, -⟩ := h
            subst h
            constructor
            · exact hsize1
            · exact hlen1
            · exact hbestall
            · intro hna
              exact absurd hna (by simp)
            · intro ea1 h1 h2
              exact absurd h1 (by simp)
            · intro c1 hc1 hal1 ea1 h1 h2
              exact absurd h1 (by simp)
            · intro c1 hc1 hal1 t ht pc hpc
              have hcc : r.contract = some c1 := by rw [hc]; exact hc1
              exact hplaysall c1 hcc hal1 t ht pc hpc
            · intro c1 hc1 hal1 _
              have hcc : r.contract = some c1 := by rw [hc]; exact hc1
              show r.tricks.trick_size = 3
              exact hinv.alone_size c1 hcc hal1
                (Or.inr ⟨⟨s, ActionType.Follow⟩, hea, Or.inr rfl⟩)
          case h_2 houtc =>
            simp only [BaseRound.next_trick, Option.some_inj, Prod.mk.injEq] at h
            obtain ⟨h, -⟩ := h
            subst h
            constructor
            · exact hsize1
            · exact hlen1
            · exact hbestall
            · intro _
              exact houtc
            · intro ea1 h1 h2
              injection h1 with h1
              subst h1
              rcases h2 with h2 | h2 | h2 <;> exact absurd h2 (by simp)
            · intro c1 hc1 hal1 ea1 h1 h2
              have hcc : r.contract = some c1 := by rw [hc]; exact hc1
              injection h1 with h1
              subst h1
              show (trick.play s card).best_play.1 ≠ c1.maker.opposite
              exact hplays1 c1 hcc hal1 _ (best_play_mem _ hbest1)
            · intro c1 hc1 hal1 t ht pc hpc
              have hcc : r.contract = some c1 := by rw [hc]; exact hc1
              exact hplaysall c1 hcc hal1 t ht pc hpc
            · intro c1 hc1 hal1 _
              have hcc : r.contract = some c1 := by rw [hc]; exact hc1
              show r.tricks.trick_size = 3
              exact hinv.alone_size c1 hcc hal1
                (Or.inr ⟨⟨s, ActionType.Follow⟩, hea, Or.inr rfl⟩)


/-- Unpacking a successful result of the PlayerError-to-RoundError lift. -/
theorem liftP_okEq (x : Option (BaseRound × Option PlayerError)) (r1 : BaseRound)
    (h : liftP x = some (r1, none)) : x = some (r1, none) := by
  rcases x with _ | ⟨r2, pe⟩
  · simp [liftP] at h
  · rcases pe with _ | pe
    · simp [liftP] at h
      rw [h]
    · simp [liftP] at h

/-- RInv is preserved by every accepted action. -/
theorem inv_apply (r : BaseRound) (a : Action) (r1 : BaseRound)
    (hinv : RInv r) (h : r.apply_action a = some (r1, none)) : RInv r1 := by
  unfold BaseRound.apply_action at h
  cases hna : r.next_action with
  | none =>
    rw [hna] at h
    simp at h
  | some ea =>
    rw [hna] at h
    try dsimp only at h
    split at h
    case isTrue => simp at h
    case isFalse hmatch =>
    have hseat := not_ne_iff.mp (not_or.mp hmatch).1
    have hact := not_ne_iff.mp (not_or.mp hmatch).2
    unfold BaseRound.apply at h
    cases hA : a.action <;> cases hD : a.data <;> rw [hA, hD] at h <;>
      try dsimp only at h
    case BidTop.Pass =>
      simp only [Option.some_inj, Prod.mk.injEq] at h
      obtain ⟨h, -⟩ := h
      subst h
      have htr : r.tricks.tricks = [] :=
        hinv.bid_tricks ea hna (Or.inl (hact.trans hA))
      unfold BaseRound.pass_top
      split
      · exact inv_nonplay _ htr hinv.size_ok _ _ rfl (Or.inr (Or.inl rfl))
      · exact inv_nonplay _ htr hinv.size_ok _ _ rfl (Or.inl rfl)
    case BidTop.Call suit alone =>
      have hbt := liftP_okEq _ _ h
      have htr : r.tricks.tricks = [] :=
        hinv.bid_tricks ea hna (Or.inl (hact.trans hA))
      unfold BaseRound.bid_top at hbt
      split at hbt
      case isFalse => simp at hbt
      case isTrue hsuit =>
      try dsimp only at hbt
      split at hbt
      case h_1 => exact absurd hbt (by simp)
      case h_2 r2 heq2 =>
      simp only [Option.some_inj, Prod.mk.injEq] at hbt
      obtain ⟨hbt, -⟩ := hbt
      subst hbt
      split at heq2
      · exact inv_events _ _ (first_trick_inv _ r2 heq2 htr hinv.size_ok)
      · injection heq2 with heq2
        subst heq2
        exact inv_events _ _ (inv_nonplay _ htr hinv.size_ok _ _ rfl (Or.inr (Or.inr rfl)))
    case BidTop.Card card =>
      simp at h
    case BidOther.Pass =>
      have hp := liftP_okEq _ _ h
      injection hp with hp
      have htr : r.tricks.tricks = [] :=
        hinv.bid_tricks ea hna (Or.inr (Or.inl (hact.trans hA)))
      unfold BaseRound.pass_other at hp
      split at hp
      · simp at hp
      · simp only [Prod.mk.injEq] at hp
        obtain ⟨hp, -⟩ := hp
        subst hp
        exact inv_nonplay _ htr hinv.size_ok _ _ rfl (Or.inr (Or.inl rfl))
    case BidOther.Call suit alone =>
      have hbo := liftP_okEq _ _ h
      have htr : r.tricks.tricks = [] :=
        hinv.bid_tricks ea hna (Or.inr (Or.inl (hact.trans hA)))
      unfold BaseRound.bid_other at hbo
      split at hbo
      case isTrue => simp at hbo
      case isFalse hsuit =>
      try dsimp only at hbo
      split at hbo
      case h_1 => exact absurd hbo (by simp)
      case h_2 r2 heq2 =>
      simp only [Option.some_inj, Prod.mk.injEq] at hbo
      obtain ⟨hbo, -⟩ := hbo
      subst hbo
      exact inv_events _ _ (first_trick_inv _ r2 heq2 htr hinv.size_ok)
    case BidOther.Card card =>
      simp at h
    case DealerDiscard.Pass =>
      simp at h
    case DealerDiscard.Call suit alone =>
      simp at h
    case DealerDiscard.Card card =>
      have hd := liftP_okEq _ _ h
      have htr : r.tricks.tricks = [] :=
        hinv.bid_tricks ea hna (Or.inr (Or.inr (hact.trans hA)))
      unfold BaseRound.dealer_discard at hd
      split at hd
      case isFalse => exact absurd hd (by simp)
      case isTrue hdl =>
      split at hd
      case h_1 => simp at hd
      case h_2 index heqf =>
      split at hd
      case h_1 => exact absurd hd (by simp)
      case h_2 r2 heq2 =>
      simp only [Option.some_inj, Prod.mk.injEq] at hd
      obtain ⟨hd, -⟩ := hd
      subst hd
      exact first_trick_inv _ r2 heq2 htr hinv.size_ok
    case Lead.Pass =>
      simp at h
    case Lead.Call suit alone =>
      simp at h
    case Lead.Card card =>
      have hea2 : r.next_action = some ⟨a.seat, ActionType.Lead⟩ := by
        rw [hna]
        cases ea with
        | mk es et =>
          have hs2 : es = a.seat := hseat
          have ht2 : et = ActionType.Lead := hact.trans hA
          rw [hs2, ht2]
      exact lead_inv r hinv a.seat card hea2 r1 (liftP_okEq _ _ h)
    case Follow.Pass =>
      simp at h
    case Follow.Call suit alone =>
      simp at h
    case Follow.Card card =>
      have hea2 : r.next_action = some ⟨a.seat, ActionType.Follow⟩ := by
        rw [hna]
        cases ea with
        | mk es et =>
          have hs2 : es = a.seat := hseat
          have ht2 : et = ActionType.Follow := hact.trans hA
          rw [hs2, ht2]
      exact follow_inv r hinv a.seat card hea2 r1 (liftP_okEq _ _ h)


/-- The initial round state satisfies the invariant. -/
theorem inv_init (cfg : RoundConfig) : RInv (BaseRound.fromConfig cfg) := by
  constructor
  · right
    rfl
  · simp [BaseRound.fromConfig, Tricks.default]
  · intro t ht
    simp [BaseRound.fromConfig, Tricks.default] at ht
  · intro _
    exact outcome_empty _ rfl
  · intro ea h1 h2
    rfl
  · intro c hc hal ea h1 h2
    simp [BaseRound.fromConfig] at hc
  · intro c hc hal t ht
    simp [BaseRound.fromConfig] at hc
  · intro c hc hal hdis
    simp [BaseRound.fromConfig] at hc

/-- The invariant holds along every accepted run. -/
theorem inv_run (as : List Action) (r0 r : BaseRound) (hinv : RInv r0)
    (hrun : runB r0 as = some r) : RInv r := by
  induction as generalizing r0 with
  | nil =>
    unfold runB at hrun
    injection hrun with hrun
    rw [← hrun]
    exact hinv
  | cons a rest ih =>
    unfold runB at hrun
    cases happ : r0.apply_action a with
    | none =>
      rw [happ] at hrun
      simp at hrun
    | some p =>
      rcases p with ⟨r1, oe⟩
      rw [happ] at hrun
      cases oe with
      | some e =>
        simp at hrun
      | none =>
        exact ih r1 (inv_apply r0 a r1 hinv happ) hrun


/-- Two filters with incompatible predicates jointly select at most the
whole list. -/
theorem filter_disjoint_le {α : Type} (p q : α → Bool) (l : List α)
    (hpq : ∀ x, ¬(p x = true ∧ q x = true)) :
    (l.filter p).length + (l.filter q).length ≤ l.length := by
  induction l with
  | nil => simp
  | cons x rest ih =>
    simp only [List.filter_cons]
    by_cases hp : p x = true
    · rw [if_pos hp, if_neg (fun hq => hpq x ⟨hp, hq⟩)]
      simp only [List.length_cons]
      omega
    · rw [if_neg hp]
      by_cases hq : q x = true
      · rw [if_pos hq]
        simp only [List.length_cons]
        omega
      · rw [if_neg hq]
        simp only [List.length_cons]
        omega

/-- The two team win counts never exceed the number of tricks. -/
theorem win_counts_le (t : Tricks) :
    t.win_count Team.NorthSouth + t.win_count Team.EastWest ≤ t.tricks.length := by
  unfold Tricks.win_count
  apply filter_disjoint_le
  intro x ⟨h1, h2⟩
  simp only [Bool.and_eq_true, decide_eq_true_eq] at h1 h2
  rw [h1.2] at h2
  exact absurd h2.2 (by simp)

/-- Claim C2: in every reachable round state with an established contract,
as soon as the defending team has three completed tricks the round is over:
the outcome is the defenders scoring two points and next_action is none,
regardless of how many tricks have been played. -/
theorem c2_early_euchre :
    ∀ (cfg : RoundConfig) (acts : List Action) (r : BaseRound) (c : Contract),
      runB (BaseRound.fromConfig cfg) acts = some r →
      r.contract = some c →
      3 ≤ r.tricks.win_count (Team.ofSeat c.maker).other →
      r.outcome = some ⟨(Team.ofSeat c.maker).other, 2⟩ ∧ r.next_action = none := by
  intro cfg acts r c hrun hc hd
  have hout : r.outcome = some ⟨(Team.ofSeat c.maker).other, 2⟩ := by
    unfold BaseRound.outcome
    rw [hc]
    dsimp only
    rw [if_pos hd]
  refine ⟨hout, ?_⟩
  have hinv := inv_run acts _ r (inv_init cfg) hrun
  cases hna : r.next_action with
  | none => rfl
  | some ea =>
    have hn := hinv.out_ok (by rw [hna]; rfl)
    rw [hn] at hout
    exact absurd hout (by simp)

/-- Witness for C2: in round A the defenders win the first three tricks;
the round ends with the defenders scoring two although only three of five
tricks were played. -/
theorem c2_early_euchre_witness :
    ∃ r : BaseRound,
      runB (BaseRound.fromConfig cfgA) actsA = some r ∧
      r.contract = some ⟨Seat.East, Suit.Club, false⟩ ∧
      3 ≤ r.tricks.win_count Team.NorthSouth ∧
      r.tricks.tricks.length < 5 ∧
      r.outcome = some ⟨Team.NorthSouth, 2⟩ ∧ r.next_action = none := by
  refine ⟨(runB (BaseRound.fromConfig cfgA) actsA).getD (BaseRound.fromConfig cfgA),
    by decide, by decide, by decide, by decide, ?_, ?_⟩
  · exact (c2_early_euchre cfgA actsA _ ⟨Seat.East, Suit.Club, false⟩
      (by decide) (by decide) (by decide)).1
  · exact (c2_early_euchre cfgA actsA _ ⟨Seat.East, Suit.Club, false⟩
      (by decide) (by decide) (by decide)).2

/-- Claim C4: in every reachable round state after a lone-hand contract is
established, the teammate of the maker is never the seat of the pending
Lead or Follow, and from the first trick of that contract onward the
per-trick size is 3. -/
theorem c4_lone_skip :
    ∀ (cfg : RoundConfig) (acts : List Action) (r : BaseRound) (c : Contract),
      runB (BaseRound.fromConfig cfg) acts = some r →
      r.contract = some c → c.alone = true →
      (∀ ea, r.next_action = some ea →
        (ea.action = ActionType.Lead ∨ ea.action = ActionType.Follow) →
        ea.seat ≠ c.maker.opposite) ∧
      ((r.tricks.tricks ≠ [] ∨ (∃ ea, r.next_action = some ea ∧
          (ea.action = ActionType.Lead ∨ ea.action = ActionType.Follow))) →
        r.tricks.trick_size = 3) := by
  intro cfg acts r c hrun hc hal
  have hinv := inv_run acts _ r (inv_init cfg) hrun
  exact ⟨hinv.alone_na c hc hal, hinv.alone_size c hc hal⟩

/-- Witness for C4: in round B East plays hearts alone; after fourteen
actions the pending action is a lead by East (not by West, the teammate of
East) and the trick size is 3. -/
theorem c4_lone_skip_witness :
    ∃ r : BaseRound,
      runB (BaseRound.fromConfig cfgB) actsB14 = some r ∧
      r.contract = some ⟨Seat.East, Suit.Heart, true⟩ ∧
      r.next_action = some ⟨Seat.East, ActionType.Lead⟩ ∧
      Seat.East ≠ Seat.East.opposite ∧
      r.tricks.trick_size = 3 := by
  refine ⟨(runB (BaseRound.fromConfig cfgB) actsB14).getD (BaseRound.fromConfig cfgB),
    ?_, ?_, ?_, ?_, ?_⟩
  · decide
  · decide
  · decide
  · exact (c4_lone_skip cfgB actsB14
      ((runB (BaseRound.fromConfig cfgB) actsB14).getD (BaseRound.fromConfig cfgB))
      ⟨Seat.East, Suit.Heart, true⟩ (by decide) (by decide) rfl).1
      ⟨Seat.East, ActionType.Lead⟩ (by decide) (Or.inl rfl)
  · exact (c4_lone_skip cfgB actsB14
      ((runB (BaseRound.fromConfig cfgB) actsB14).getD (BaseRound.fromConfig cfgB))
      ⟨Seat.East, Suit.Heart, true⟩ (by decide) (by decide) rfl).2
      (Or.inr ⟨⟨Seat.East, ActionType.Lead⟩, by decide, Or.inl rfl⟩)


/-- Counterexample to claim C3: in round B East plays hearts alone and
wins the first three tricks, so the completed-trick counts sum to 3 with
the makers holding all 3, yet the outcome is still unresolved and the
round continues; the outcome does not resolve at a trick total of 3. -/
theorem c3_lone_total_counterexample :
    ∃ r : BaseRound, ∃ c : Contract,
      runB (BaseRound.fromConfig cfgB) actsB14 = some r ∧
      r.contract = some c ∧ c.alone = true ∧
      r.tricks.trick_size = 3 ∧
      r.tricks.win_count (Team.ofSeat c.maker) = 3 ∧
      r.tricks.win_count (Team.ofSeat c.maker) +
        r.tricks.win_count (Team.ofSeat c.maker).other = 3 ∧
      r.outcome = none ∧
      r.next_action ≠ none := by
  refine ⟨(runB (BaseRound.fromConfig cfgB) actsB14).getD (BaseRound.fromConfig cfgB),
    ⟨Seat.East, Suit.Heart, true⟩, ?_, ?_, ?_, ?_, ?_, ?_, ?_, ?_⟩
  · decide
  · decide
  · decide
  · decide
  · decide
  · decide
  · decide
  · decide

/-- Claim C3 (amended): when the contract is a lone hand the per-trick
size is 3 (three cards per trick) once play has begun, but the round still
consists of five tricks: the outcome resolves once the completed-trick
counts of the makers and defenders sum to five (or earlier, on a euchre
once the defenders hold three tricks), a split at five tricks with the
makers short of a sweep scores the makers one point, and a maker sweep of
all five tricks scores the makers four points. -/
theorem c3_lone_amended :
    ∀ (cfg : RoundConfig) (acts : List Action) (r : BaseRound) (c : Contract),
      runB (BaseRound.fromConfig cfg) acts = some r →
      r.contract = some c → c.alone = true →
      ((r.tricks.tricks ≠ [] ∨ (∃ ea, r.next_action = some ea ∧
          (ea.action = ActionType.Lead ∨ ea.action = ActionType.Follow))) →
        r.tricks.trick_size = 3) ∧
      (3 ≤ r.tricks.win_count (Team.ofSeat c.maker).other →
        r.outcome = some ⟨(Team.ofSeat c.maker).other, 2⟩) ∧
      (r.tricks.win_count (Team.ofSeat c.maker) +
          r.tricks.win_count (Team.ofSeat c.maker).other = 5 →
        r.outcome ≠ none) ∧
      (r.tricks.win_count (Team.ofSeat c.maker) +
          r.tricks.win_count (Team.ofSeat c.maker).other = 5 →
        r.tricks.win_count (Team.ofSeat c.maker).other < 3 →
        r.tricks.win_count (Team.ofSeat c.maker) ≠ 5 →
        r.outcome = some ⟨Team.ofSeat c.maker, 1⟩) ∧
      (r.tricks.win_count (Team.ofSeat c.maker) = 5 →
        r.outcome = some ⟨Team.ofSeat c.maker, 4⟩) := by
  intro cfg acts r c hrun hc hal
  have hinv := inv_run acts _ r (inv_init cfg) hrun
  have hle := win_counts_le r.tricks
  have hlen := hinv.len_ok
  refine ⟨hinv.alone_size c hc hal, ?_, ?_, ?_, ?_⟩
  · intro hd
    unfold BaseRound.outcome
    rw [hc]
    dsimp only
    rw [if_pos hd]
  · intro hsum
    unfold BaseRound.outcome
    rw [hc]
    dsimp only
    by_cases hd : 3 ≤ r.tricks.win_count (Team.ofSeat c.maker).other
    · rw [if_pos hd]
      simp
    · rw [if_neg hd, if_pos hsum]
      by_cases hm : r.tricks.win_count (Team.ofSeat c.maker) = 5
      · rw [if_pos hm, if_pos hal]
        simp
      · rw [if_neg hm]
        simp
  · intro hsum hd hm
    unfold BaseRound.outcome
    rw [hc]
    dsimp only
    rw [if_neg (by omega), if_pos hsum, if_neg hm]
  · intro hm
    have hd0 : r.tricks.win_count (Team.ofSeat c.maker).other = 0 := by
      cases hteam : Team.ofSeat c.maker <;> rw [hteam] at hm <;> simp [Team.other] <;> omega
    unfold BaseRound.outcome
    rw [hc]
    dsimp only
    rw [hd0, hm]
    rw [if_neg (by omega), if_pos (by omega), if_pos rfl, if_pos hal]

/-- Witness for the amended C3: East sweeps all five tricks of the lone
hand in round B; the completed-trick counts sum to five, the outcome is
resolved, and the makers score four points. -/
theorem c3_lone_amended_witness :
    ∃ r : BaseRound,
      runB (BaseRound.fromConfig cfgB) actsB = some r ∧
      r.contract = some ⟨Seat.East, Suit.Heart, true⟩ ∧
      r.tricks.win_count Team.EastWest = 5 ∧
      r.tricks.win_count Team.EastWest + r.tricks.win_count Team.EastWest.other = 5 ∧
      r.tricks.trick_size = 3 ∧
      r.outcome ≠ none ∧
      r.outcome = some ⟨Team.EastWest, 4⟩ := by
  refine ⟨(runB (BaseRound.fromConfig cfgB) actsB).getD (BaseRound.fromConfig cfgB),
    ?_, ?_, ?_, ?_, ?_, ?_, ?_⟩
  · decide
  · decide
  · decide
  · decide
  · exact (c3_lone_amended cfgB actsB
      ((runB (BaseRound.fromConfig cfgB) actsB).getD (BaseRound.fromConfig cfgB))
      ⟨Seat.East, Suit.Heart, true⟩ (by decide) (by decide) rfl).1
      (Or.inl (by decide))
  · exact (c3_lone_amended cfgB actsB
      ((runB (BaseRound.fromConfig cfgB) actsB).getD (BaseRound.fromConfig cfgB))
      ⟨Seat.East, Suit.Heart, true⟩ (by decide) (by decide) rfl).2.2.1
      (by decide)
  · exact (c3_lone_amended cfgB actsB
      ((runB (BaseRound.fromConfig cfgB) actsB).getD (BaseRound.fromConfig cfgB))
      ⟨Seat.East, Suit.Heart, true⟩ (by decide) (by decide) rfl).2.2.2.2
      (by decide)


theorem findNode_mem (l : List ActionNode) (i : Nat) (nd : ActionNode)
    (h : findNode l i = some nd) : nd ∈ l ∧ nd.id = i := by
  induction l with
  | nil => simp [findNode] at h
  | cons x rest ih =>
    unfold findNode at h
    split at h
    · rename_i hx
      injection h with h
      subst h
      exact ⟨by simp, hx⟩
    · obtain ⟨h1, h2⟩ := ih h
      exact ⟨by simp [h1], h2⟩

theorem findNode_isSome (l : List ActionNode) (i : Nat)
    (h : i ∈ l.map ActionNode.id) : (findNode l i).isSome = true := by
  induction l with
  | nil => simp at h
  | cons x rest ih =>
    unfold findNode
    split
    · rfl
    · rename_i hx
      simp only [List.map_cons, List.mem_cons] at h
      rcases h with h | h
      · exact absurd h.symm hx
      · exact ih h

theorem findNode_none (l : List ActionNode) (i : Nat)
    (h : findNode l i = none) : i ∉ l.map ActionNode.id := by
  intro hmem
  have hs := findNode_isSome l i hmem
  rw [h] at hs
  simp at hs

theorem findNode_append_left (l1 l2 : List ActionNode) (i : Nat) (nd : ActionNode)
    (h : findNode l1 i = some nd) : findNode (l1 ++ l2) i = some nd := by
  induction l1 with
  | nil => simp [findNode] at h
  | cons x rest ih =>
    unfold findNode at h
    show (if x.id = i then some x else findNode (rest ++ l2) i) = some nd
    split at h
    · rename_i hx
      rw [if_pos hx]
      exact h
    · rename_i hx
      rw [if_neg hx]
      exact ih h

theorem findNode_append_right (l1 l2 : List ActionNode) (i : Nat)
    (h : findNode l1 i = none) : findNode (l1 ++ l2) i = findNode l2 i := by
  induction l1 with
  | nil => rfl
  | cons x rest ih =>
    unfold findNode at h
    show (if x.id = i then some x else findNode (rest ++ l2) i) = findNode l2 i
    split at h
    · exact absurd h (by simp)
    · rename_i hx
      rw [if_neg hx]
      exact ih h

theorem assocFind_mem (m : List (Option Nat × List Nat)) (p : Option Nat)
    (l : List Nat) (h : assocFind m p = some l) : (p, l) ∈ m := by
  induction m with
  | nil => simp [assocFind] at h
  | cons e rest ih =>
    unfold assocFind at h
    split at h
    · rename_i he
      injection h with h
      subst h
      rw [← he]
      simp
    · simp [ih h]

theorem nodeInsert_fresh (m : List ActionNode) (nd : ActionNode)
    (h : ∀ x ∈ m, x.id ≠ nd.id) : nodeInsert m nd = m ++ [nd] := by
  unfold nodeInsert
  congr 1
  apply List.filter_eq_self.mpr
  intro x hx
  simp [h x hx]

theorem childPush_notfound (m : List (Option Nat × List Nat)) (p : Option Nat) (i : Nat)
    (h : assocFind m p = none) : childPush m p i = m ++ [(p, [i])] := by
  induction m with
  | nil => rfl
  | cons e rest ih =>
    unfold assocFind at h
    unfold childPush
    split at h
    · exact absurd h (by simp)
    · rename_i he
      rw [if_neg he]
      simp [ih h]

theorem childPush_found (m : List (Option Nat × List Nat)) (p : Option Nat) (i : Nat)
    (l : List Nat) (h : assocFind m p = some l) :
    assocFind (childPush m p i) p = some (l ++ [i]) ∧
    (∀ q, q ≠ p → assocFind (childPush m p i) q = assocFind m q) ∧
    (childPush m p i).map Prod.fst = m.map Prod.fst := by
  induction m with
  | nil => simp [assocFind] at h
  | cons e rest ih =>
    unfold assocFind at h
    by_cases he : e.1 = p
    · rw [if_pos he] at h
      injection h with h
      subst h
      unfold childPush
      rw [if_pos he]
      refine ⟨?_, ?_, by simp⟩
      · unfold assocFind
        rw [if_pos he]
      · intro q hq
        unfold assocFind
        rw [if_neg (by rw [he]; exact fun hqq => hq hqq.symm),
            if_neg (by rw [he]; exact fun hqq => hq hqq.symm)]
    · rw [if_neg he] at h
      obtain ⟨ih1, ih2, ih3⟩ := ih h
      unfold childPush
      rw [if_neg he]
      refine ⟨?_, ?_, by simp [ih3]⟩
      · unfold assocFind
        rw [if_neg he]
        exact ih1
      · intro q hq
        unfold assocFind
        by_cases heq : e.1 = q
        · rw [if_pos heq, if_pos heq]
        · rw [if_neg heq, if_neg heq]
          exact ih2 q hq

theorem insertId_perm (i : Nat) (l : List Nat) : (insertId i l).Perm (i :: l) := by
  induction l with
  | nil => rfl
  | cons x rest ih =>
    unfold insertId
    split
    · rfl
    · exact (List.Perm.cons x ih).trans (List.Perm.swap i x rest)

theorem sortIds_perm (l : List Nat) : (sortIds l).Perm l := by
  induction l with
  | nil => rfl
  | cons x rest ih =>
    unfold sortIds
    simp only [List.foldr_cons]
    exact (insertId_perm x _).trans (List.Perm.cons x ih)

theorem insertNodeById_perm (nd : ActionNode) (l : List ActionNode) :
    (insertNodeById nd l).Perm (nd :: l) := by
  induction l with
  | nil => rfl
  | cons x rest ih =>
    unfold insertNodeById
    split
    · rfl
    · exact (List.Perm.cons x ih).trans (List.Perm.swap nd x rest)

theorem sortNodesById_perm (l : List ActionNode) : (sortNodesById l).Perm l := by
  induction l with
  | nil => rfl
  | cons x rest ih =>
    unfold sortNodesById
    simp only [List.foldr_cons]
    exact (insertNodeById_perm x _).trans (List.Perm.cons x ih)


theorem wf_parent_lt (log : Log) (hwf : LogWF log) (i p : Nat) (nd : ActionNode)
    (h : findNode log.actions i = some nd) (hp : nd.parent = some p) : p < i := by
  obtain ⟨hmem, hid⟩ := findNode_mem _ _ _ h
  have := (hwf.2.2.2.1 nd hmem p (by rw [hp]; simp)).1
  omega

theorem childIds_sound (log : Log) (hwf : LogWF log) (i c : Nat)
    (hc : c ∈ (assocFind log.children (some i)).getD []) :
    ∃ nd, findNode log.actions c = some nd ∧ nd.parent = some i ∧ i < c := by
  cases haf : assocFind log.children (some i) with
  | none => rw [haf] at hc; simp at hc
  | some l =>
    rw [haf] at hc
    simp at hc
    have hmem := assocFind_mem _ _ _ haf
    have hsound := hwf.2.2.2.2.1 (some i, l) hmem c hc
    cases hfn : findNode log.actions c with
    | none => rw [hfn] at hsound; simp at hsound
    | some nd =>
      rw [hfn] at hsound
      simp at hsound
      exact ⟨nd, rfl, hsound, wf_parent_lt log hwf c i nd hfn hsound⟩

theorem childIds_complete (log : Log) (hwf : LogWF log) (j p : Nat) (nd : ActionNode)
    (h : findNode log.actions j = some nd) (hp : nd.parent = some p) :
    j ∈ (assocFind log.children (some p)).getD [] := by
  obtain ⟨hmem, hid⟩ := findNode_mem _ _ _ h
  have hcc := hwf.2.2.2.2.2.1 nd hmem
  rw [hp] at hcc
  exact hid ▸ hcc

theorem ancChain_of_none (log : Log) (i : Nat) (h : findNode log.actions i = none) :
    ∀ fuel, ancChain log fuel i = [i]
  | 0 => rfl
  | fuel + 1 => by unfold ancChain; rw [h]

theorem ancChain_of_root (log : Log) (i : Nat) (nd : ActionNode)
    (h : findNode log.actions i = some nd) (hp : nd.parent = none) :
    ∀ fuel, ancChain log fuel i = [i]
  | 0 => rfl
  | fuel + 1 => by
    unfold ancChain
    rw [h]
    dsimp only
    rw [hp]

theorem ancChain_of_parent (log : Log) (i p fuel : Nat) (nd : ActionNode)
    (h : findNode log.actions i = some nd) (hp : nd.parent = some p) :
    ancChain log (fuel + 1) i = i :: ancChain log fuel p := by
  conv_lhs => unfold ancChain
  rw [h]
  dsimp only
  rw [hp]

theorem ancChain_succ (log : Log) (i p fuel : Nat) (nd : ActionNode)
    (h : findNode log.actions i = some nd) (hp : nd.parent = some p) (hfuel : 1 ≤ fuel) :
    ancChain log fuel i = i :: ancChain log (fuel - 1) p := by
  obtain ⟨f1, rfl⟩ : ∃ f1, fuel = f1 + 1 := ⟨fuel - 1, by omega⟩
  simpa using ancChain_of_parent log i p f1 nd h hp

theorem ancChain_stable (log : Log) (hwf : LogWF log) :
    ∀ i fuel, i ≤ fuel → ancChain log fuel i = anc log i := by
  intro i
  induction i using Nat.strong_induction_on with
  | _ i IH =>
    intro fuel hfuel
    cases hfn : findNode log.actions i with
    | none => rw [ancChain_of_none log i hfn fuel, anc, ancChain_of_none log i hfn i]
    | some nd =>
      cases hp : nd.parent with
      | none =>
        rw [ancChain_of_root log i nd hfn hp fuel, anc, ancChain_of_root log i nd hfn hp i]
      | some p =>
        have hplt := wf_parent_lt log hwf i p nd hfn hp
        rw [ancChain_succ log i p fuel nd hfn hp (by omega), anc,
            ancChain_succ log i p i nd hfn hp (by omega)]
        rw [IH p hplt (fuel - 1) (by omega), IH p hplt (i - 1) (by omega)]

theorem anc_node (log : Log) (hwf : LogWF log) (i p : Nat) (nd : ActionNode)
    (h : findNode log.actions i = some nd) (hp : nd.parent = some p) :
    anc log i = i :: anc log p := by
  have hplt := wf_parent_lt log hwf i p nd h hp
  rw [anc, ancChain_succ log i p i nd h hp (by omega),
      ancChain_stable log hwf p (i - 1) (by omega)]

theorem ancChain_head (log : Log) (fuel i : Nat) :
    ∃ rest, ancChain log fuel i = i :: rest := by
  cases fuel with
  | zero => exact ⟨[], rfl⟩
  | succ f =>
    cases hfn : findNode log.actions i with
    | none => exact ⟨[], ancChain_of_none log i hfn (f + 1)⟩
    | some nd =>
      cases hp : nd.parent with
      | none => exact ⟨[], ancChain_of_root log i nd hfn hp (f + 1)⟩
      | some p => exact ⟨_, ancChain_of_parent log i p f nd hfn hp⟩

theorem mem_anc_self (log : Log) (i : Nat) : i ∈ anc log i := by
  obtain ⟨rest, h⟩ := ancChain_head log i i
  rw [anc, h]
  simp

theorem anc_le (log : Log) (hwf : LogWF log) : ∀ i, ∀ j ∈ anc log i, j ≤ i := by
  intro i
  induction i using Nat.strong_induction_on with
  | _ i IH =>
    intro j hj
    cases hfn : findNode log.actions i with
    | none =>
      rw [anc, ancChain_of_none log i hfn i] at hj
      simp at hj
      omega
    | some nd =>
      cases hp : nd.parent with
      | none =>
        rw [anc, ancChain_of_root log i nd hfn hp i] at hj
        simp at hj
        omega
      | some p =>
        have hplt := wf_parent_lt log hwf i p nd hfn hp
        rw [anc_node log hwf i p nd hfn hp] at hj
        rcases List.mem_cons.mp hj with h | h
        · omega
        · have := IH p hplt j h
          omega

theorem anc_sub (log : Log) (hwf : LogWF log) :
    ∀ i, ∀ j ∈ anc log i, ∀ x ∈ anc log j, x ∈ anc log i := by
  intro i
  induction i using Nat.strong_induction_on with
  | _ i IH =>
    intro j hj x hx
    cases hfn : findNode log.actions i with
    | none =>
      rw [anc, ancChain_of_none log i hfn i] at hj
      simp at hj
      subst hj
      exact hx
    | some nd =>
      cases hp : nd.parent with
      | none =>
        rw [anc, ancChain_of_root log i nd hfn hp i] at hj
        simp at hj
        subst hj
        exact hx
      | some p =>
        have hplt := wf_parent_lt log hwf i p nd hfn hp
        rw [anc_node log hwf i p nd hfn hp] at hj
        rcases List.mem_cons.mp hj with h | h
        · subst h
          exact hx
        · rw [anc_node log hwf i p nd hfn hp]
          exact List.mem_cons_of_mem i (IH p hplt j h x hx)

theorem mem_anc_iff (log : Log) (hwf : LogWF log) (i : Nat) :
    ∀ j, i ∈ anc log j ↔
      (j = i ∨ ∃ c ∈ (assocFind log.children (some i)).getD [], c ∈ anc log j) := by
  intro j
  induction j using Nat.strong_induction_on with
  | _ j IH =>
    constructor
    · intro hij
      cases hfn : findNode log.actions j with
      | none =>
        rw [anc, ancChain_of_none log j hfn j] at hij
        simp at hij
        exact Or.inl hij.symm
      | some nd =>
        cases hp : nd.parent with
        | none =>
          rw [anc, ancChain_of_root log j nd hfn hp j] at hij
          simp at hij
          exact Or.inl hij.symm
        | some p =>
          have hplt := wf_parent_lt log hwf j p nd hfn hp
          rw [anc_node log hwf j p nd hfn hp] at hij
          rcases List.mem_cons.mp hij with h | h
          · exact Or.inl h.symm
          · rcases (IH p hplt).mp h with h1 | ⟨c, hc, hcanc⟩
            · subst h1
              exact Or.inr ⟨j, childIds_complete log hwf j p nd hfn hp, mem_anc_self log j⟩
            · refine Or.inr ⟨c, hc, ?_⟩
              have hpj : p ∈ anc log j := by
                rw [anc_node log hwf j p nd hfn hp]
                exact List.mem_cons_of_mem j (mem_anc_self log p)
              exact anc_sub log hwf j p hpj c hcanc
    · intro h
      rcases h with rfl | ⟨c, hc, hcanc⟩
      · exact mem_anc_self log j
      · obtain ⟨ndc, hfnc, hpc, hic⟩ := childIds_sound log hwf i c hc
        have h1 : i ∈ anc log c := by
          rw [anc_node log hwf c i ndc hfnc hpc]
          exact List.mem_cons_of_mem c (mem_anc_self log i)
        exact anc_sub log hwf j c hcanc i h1


theorem ofRaw_fold_fst (l : List ActionNode) (m : Nat) (ch : List (Option Nat × List Nat))
    (ac : List ActionNode) :
    (l.foldl (fun acc nd =>
      (if acc.1 < nd.id then nd.id else acc.1,
       childPush acc.2.1 nd.parent nd.id,
       nodeInsert acc.2.2 nd)) (m, ch, ac)).1 =
      (l.map ActionNode.id).foldl Nat.max m := by
  induction l generalizing m ch ac with
  | nil => rfl
  | cons nd rest ih =>
    simp only [List.foldl_cons, List.map_cons]
    rw [ih]
    congr 1
    have hmx : Nat.max m nd.id = max m nd.id := rfl
    rw [hmx]
    split <;> omega

theorem ofRaw_next_id (raw : RawLog) :
    (Log.ofRaw raw).next_id = (raw.actions.map ActionNode.id).foldl Nat.max 0 + 1 := by
  unfold Log.ofRaw
  dsimp only
  rw [ofRaw_fold_fst]

/-- Claim C10: From\<RawLog\> sets next_id to one past the maximum raw node id
(a fresh insertion therefore allocates max+1 unless it is deduplicated), an
action-free RawLog yields next_id 1 while Log::new starts at 0, and hence the
first insert after round-tripping an action-free log allocates id 1 instead
of 0. -/
theorem c10_next_id_alloc :
    (∀ raw : RawLog,
      (Log.ofRaw raw).next_id = (raw.actions.map ActionNode.id).foldl Nat.max 0 + 1) ∧
    (∀ raw : RawLog, ∀ parent a log1 id1,
      (Log.ofRaw raw).insert parent a = some (log1, id1) →
      log1 = Log.ofRaw raw ∨
        id1 = (raw.actions.map ActionNode.id).foldl Nat.max 0 + 1) ∧
    (∀ cfg : RoundConfig, (Log.ofRaw { config := cfg, actions := [] }).next_id = 1) ∧
    (∀ cfg : RoundConfig, (Log.new cfg).next_id = 0) ∧
    (∀ cfg : RoundConfig, ∀ a : Action,
      (∃ l1, (Log.new cfg).insert none a = some (l1, 0)) ∧
      (∃ l1, (Log.ofRaw (RawLog.ofLog (Log.new cfg))).insert none a = some (l1, 1))) := by
  refine ⟨ofRaw_next_id, ?_, fun cfg => rfl, fun cfg => rfl, fun cfg a => ⟨⟨_, rfl⟩, ⟨_, rfl⟩⟩⟩
  intro raw parent a log1 id1 h
  unfold Log.insert at h
  cases hfc : (Log.ofRaw raw).find_child parent a with
  | none => rw [hfc] at h; cases h
  | some r =>
    cases r with
    | some cid =>
      rw [hfc] at h
      dsimp only at h
      injection h with h
      exact Or.inl (congrArg Prod.fst h).symm
    | none =>
      rw [hfc] at h
      dsimp only at h
      split at h
      · cases h
      · injection h with h
        have := (congrArg Prod.snd h).symm
        dsimp only at this
        exact Or.inr (this.trans (ofRaw_next_id raw))

theorem c10_next_id_alloc_witness :
    logC10W = Log.ofRaw { config := cfgB, actions := [] } ∨
      1 = (((RawLog.mk cfgB []).actions.map ActionNode.id).foldl Nat.max 0 + 1) :=
  c10_next_id_alloc.2.1 { config := cfgB, actions := [] } none aC10W logC10W 1 (by decide)


theorem ofRaw_fold_actions (l : List ActionNode) (m : Nat) (ch : List (Option Nat × List Nat))
    (ac : List ActionNode)
    (hdisj : ∀ nd ∈ l, ∀ x ∈ ac, x.id ≠ nd.id)
    (hl : (l.map ActionNode.id).Nodup) :
    (l.foldl (fun acc nd =>
      (if acc.1 < nd.id then nd.id else acc.1,
       childPush acc.2.1 nd.parent nd.id,
       nodeInsert acc.2.2 nd)) (m, ch, ac)).2.2 = ac ++ l := by
  induction l generalizing m ch ac with
  | nil => simp
  | cons nd rest ih =>
    simp only [List.foldl_cons]
    rw [nodeInsert_fresh ac nd (fun x hx => hdisj nd (by simp) x hx)]
    rw [List.map_cons, List.nodup_cons] at hl
    rw [ih _ _ _ ?_ hl.2]
    · simp
    · intro nd1 hnd1 x hx
      rcases List.mem_append.mp hx with hx | hx
      · exact hdisj nd1 (by simp [hnd1]) x hx
      · rw [List.mem_singleton.mp hx]
        intro hcontra
        exact hl.1 (hcontra ▸ List.mem_map_of_mem ActionNode.id hnd1)

theorem ofRaw_actions (raw : RawLog) (h : (raw.actions.map ActionNode.id).Nodup) :
    (Log.ofRaw raw).actions = raw.actions := by
  unfold Log.ofRaw
  dsimp only
  rw [ofRaw_fold_actions raw.actions 0 [] [] (by simp) h]
  rfl

theorem findNode_of_mem_nodup (l : List ActionNode) (hnd : (l.map ActionNode.id).Nodup)
    (nd : ActionNode) (hmem : nd ∈ l) : findNode l nd.id = some nd := by
  induction l with
  | nil => simp at hmem
  | cons x rest ih =>
    rw [List.map_cons, List.nodup_cons] at hnd
    show (if x.id = nd.id then some x else findNode rest nd.id) = some nd
    rcases List.mem_cons.mp hmem with h | h
    · rw [if_pos (by rw [h]), h]
    · rw [if_neg ?_]
      · exact ih hnd.2 h
      · intro hcontra
        exact hnd.1 (hcontra ▸ List.mem_map_of_mem ActionNode.id h)

theorem findNode_eq_none (l : List ActionNode) (i : Nat) (h : i ∉ l.map ActionNode.id) :
    findNode l i = none := by
  cases hfn : findNode l i with
  | none => rfl
  | some nd =>
    obtain ⟨hmem, hid⟩ := findNode_mem _ _ _ hfn
    exact absurd (hid ▸ List.mem_map_of_mem ActionNode.id hmem) h

theorem findNode_eq_of_perm (l1 l2 : List ActionNode) (hperm : l1.Perm l2)
    (hnd : (l1.map ActionNode.id).Nodup) (i : Nat) :
    findNode l1 i = findNode l2 i := by
  cases h1 : findNode l1 i with
  | some nd =>
    obtain ⟨hmem, hid⟩ := findNode_mem _ _ _ h1
    rw [← hid]
    exact (findNode_of_mem_nodup l2 (((hperm.map _).nodup_iff).mp hnd) nd
      (hperm.mem_iff.mp hmem)).symm
  | none =>
    have h2 : i ∉ l2.map ActionNode.id := by
      intro hc
      exact findNode_none l1 i h1 (((hperm.map ActionNode.id).mem_iff).mpr hc)
    rw [findNode_eq_none l2 i h2]

theorem backtraceAux_congr (la lb : Log) (hfn : ∀ i, findNode la.actions i = findNode lb.actions i) :
    ∀ fuel p, backtraceAux la fuel p = backtraceAux lb fuel p := by
  intro fuel
  induction fuel with
  | zero => intro p; cases p <;> rfl
  | succ f ih =>
    intro p
    cases p with
    | none => rfl
    | some id =>
      show backtraceAux la (f + 1) (some id) = backtraceAux lb (f + 1) (some id)
      unfold backtraceAux
      rw [hfn id]
      cases findNode lb.actions id with
      | none => rfl
      | some nd =>
        dsimp only
        rw [ih nd.parent]

/-- Claim C8: round-tripping a log through its RawLog persisted form yields the
same tree: the bound node ids are the same (up to the map order), every id
looks up the identical node (same parent and action), and backtrace agrees on
every id. -/
theorem c8_raw_round_trip (log : Log) (hnd : (logIds log).Nodup) :
    (logIds (Log.ofRaw (RawLog.ofLog log))).Perm (logIds log) ∧
    (∀ i, findNode (Log.ofRaw (RawLog.ofLog log)).actions i = findNode log.actions i) ∧
    (∀ i, (Log.ofRaw (RawLog.ofLog log)).backtrace i = log.backtrace i) := by
  have hperm : (sortNodesById log.actions).Perm log.actions := sortNodesById_perm _
  have hndlog : (log.actions.map ActionNode.id).Nodup := hnd
  have hndsort : ((sortNodesById log.actions).map ActionNode.id).Nodup :=
    ((hperm.map ActionNode.id).nodup_iff).mpr hndlog
  have hact : (Log.ofRaw (RawLog.ofLog log)).actions = sortNodesById log.actions :=
    ofRaw_actions (RawLog.ofLog log) hndsort
  have hfneq : ∀ i, findNode (Log.ofRaw (RawLog.ofLog log)).actions i =
      findNode log.actions i := by
    intro i
    rw [hact]
    exact findNode_eq_of_perm _ _ hperm hndsort i
  refine ⟨?_, hfneq, ?_⟩
  · show ((Log.ofRaw (RawLog.ofLog log)).actions.map ActionNode.id).Perm (logIds log)
    rw [hact]
    exact hperm.map ActionNode.id
  · intro i
    show backtraceAux _ ((Log.ofRaw (RawLog.ofLog log)).actions.length + 1) (some i) =
      backtraceAux _ (log.actions.length + 1) (some i)
    rw [hact, hperm.length_eq]
    exact backtraceAux_congr _ _ hfneq (log.actions.length + 1) (some i)

theorem c8_raw_round_trip_witness :
    (logIds (Log.ofRaw (RawLog.ofLog logC8W))).Perm (logIds logC8W) ∧
    (∀ i, findNode (Log.ofRaw (RawLog.ofLog logC8W)).actions i = findNode logC8W.actions i) ∧
    (∀ i, (Log.ofRaw (RawLog.ofLog logC8W)).backtrace i = logC8W.backtrace i) :=
  c8_raw_round_trip logC8W (by decide)


theorem indep_symm (log : Log) : Symmetric (indep log) := fun _ _ h => ⟨h.2, h.1⟩

theorem filter_split {α : Type} [DecidableEq α] (l : List α) (p q : α → Bool) (i : α)
    (hnd : l.Nodup) (hi : i ∈ l)
    (hiff : ∀ j, p j = true ↔ (j = i ∨ q j = true)) (hqi : q i = false) :
    (l.filter p).Perm (i :: l.filter q) := by
  induction l with
  | nil => simp at hi
  | cons x xs ih =>
    rw [List.nodup_cons] at hnd
    by_cases hx : x = i
    · subst hx
      have hpx : p x = true := (hiff x).mpr (Or.inl rfl)
      have hfilt : List.filter p xs = List.filter q xs := by
        apply List.filter_congr
        intro j hj
        have hji : j ≠ x := fun h => hnd.1 (h ▸ hj)
        cases hqj : q j
        · cases hpj : p j
          · rfl
          · rcases (hiff j).mp hpj with h | h
            · exact absurd h hji
            · rw [hqj] at h
              cases h
        · exact (hiff j).mpr (Or.inr hqj)
      rw [List.filter_cons, if_pos hpx, List.filter_cons, if_neg (by rw [hqi]; simp)]
      rw [hfilt]
    · have hixs : i ∈ xs := by
        rcases List.mem_cons.mp hi with h | h
        · exact absurd h.symm hx
        · exact h
      have ihh := ih hnd.2 hixs
      by_cases hqx : q x = true
      · have hpx : p x = true := (hiff x).mpr (Or.inr hqx)
        rw [List.filter_cons, if_pos hpx, List.filter_cons, if_pos hqx]
        exact (List.Perm.cons x ihh).trans (List.Perm.swap i x _)
      · have hpx : p x = false := by
          cases hpxv : p x
          · rfl
          · rcases (hiff x).mp hpxv with h | h
            · exact absurd h hx
            · exact absurd h hqx
        have hqx2 : q x = false := by
          cases hqxv : q x
          · rfl
          · exact absurd hqxv hqx
        rw [List.filter_cons, if_neg (by rw [hpx]; simp),
            List.filter_cons, if_neg (by rw [hqx2]; simp)]
        exact ihh


theorem assocFind_none_keys (m : List (Option Nat × List Nat)) (p : Option Nat)
    (h : assocFind m p = none) : p ∉ m.map Prod.fst := by
  induction m with
  | nil => simp
  | cons e rest ih =>
    unfold assocFind at h
    split at h
    · exact absurd h (by simp)
    · rename_i he
      simp only [List.map_cons, List.mem_cons]
      rintro (hc | hc)
      · exact he hc.symm
      · exact ih h hc

theorem assocFind_append_left (m m2 : List (Option Nat × List Nat)) (p : Option Nat)
    (l : List Nat) (h : assocFind m p = some l) : assocFind (m ++ m2) p = some l := by
  induction m with
  | nil => simp [assocFind] at h
  | cons e rest ih =>
    unfold assocFind at h
    show (if e.1 = p then some e.2 else assocFind (rest ++ m2) p) = some l
    split at h
    · rename_i he
      rw [if_pos he]
      exact h
    · rename_i he
      rw [if_neg he]
      exact ih h

theorem assocFind_append_right (m m2 : List (Option Nat × List Nat)) (p : Option Nat)
    (h : assocFind m p = none) : assocFind (m ++ m2) p = assocFind m2 p := by
  induction m with
  | nil => rfl
  | cons e rest ih =>
    unfold assocFind at h
    show (if e.1 = p then some e.2 else assocFind (rest ++ m2) p) = assocFind m2 p
    split at h
    · exact absurd h (by simp)
    · rename_i he
      rw [if_neg he]
      exact ih h

theorem childPush_mem (m : List (Option Nat × List Nat)) (p : Option Nat) (j : Nat) :
    ∀ e ∈ childPush m p j,
      e ∈ m ∨ (∃ e0, e0 ∈ m ∧ e0.1 = p ∧ e = (e0.1, e0.2 ++ [j])) ∨ e = (p, [j]) := by
  induction m with
  | nil =>
    intro e he
    simp [childPush] at he
    exact Or.inr (Or.inr he)
  | cons x rest ih =>
    intro e he
    unfold childPush at he
    split at he
    · rename_i hx
      rcases List.mem_cons.mp he with h | h
      · exact Or.inr (Or.inl ⟨x, by simp, hx, h⟩)
      · exact Or.inl (List.mem_cons_of_mem x h)
    · rcases List.mem_cons.mp he with h | h
      · exact Or.inl (h ▸ List.mem_cons_self x rest)
      · rcases ih e h with h1 | h1 | h1
        · exact Or.inl (List.mem_cons_of_mem x h1)
        · obtain ⟨e0, he0, hk, hee⟩ := h1
          exact Or.inr (Or.inl ⟨e0, List.mem_cons_of_mem x he0, hk, hee⟩)
        · exact Or.inr (Or.inr h1)

theorem findChildAux_isSome (actions : List ActionNode) (ids : List Nat) (a : Action)
    (h : ∀ i ∈ ids, (findNode actions i).isSome = true) :
    (findChildAux actions ids a).isSome = true := by
  induction ids with
  | nil => rfl
  | cons i rest ih =>
    show (findChildAux actions (i :: rest) a).isSome = true
    unfold findChildAux
    cases hfn : findNode actions i with
    | none =>
      have hi := h i (by simp)
      rw [hfn] at hi
      simp at hi
    | some nd =>
      dsimp only
      split
      · rfl
      · exact ih (fun j hj => h j (by simp [hj]))

theorem find_child_some (log : Log) (hwf : LogWF log) (parent : Option Nat) (a : Action) :
    ∃ r, log.find_child parent a = some r := by
  unfold Log.find_child
  cases haf : assocFind log.children parent with
  | none => exact ⟨none, rfl⟩
  | some ids =>
    dsimp only
    refine Option.isSome_iff_exists.mp (findChildAux_isSome log.actions ids a ?_)
    intro i hi
    have hmem := assocFind_mem _ _ _ haf
    have hsound := hwf.2.2.2.2.1 (parent, ids) hmem i hi
    cases hfn : findNode log.actions i with
    | none => rw [hfn] at hsound; simp at hsound
    | some nd => rfl

theorem findChildAux_cons (actions : List ActionNode) (i : Nat) (rest : List Nat) (a : Action)
    (nd : ActionNode) (hfn : findNode actions i = some nd) :
    findChildAux actions (i :: rest) a =
      if nd.action = a then some (some i) else findChildAux actions rest a := by
  conv_lhs => unfold findChildAux
  rw [hfn]

theorem findChildAux_extend (actions extra : List ActionNode) (ids : List Nat) (j : Nat)
    (a : Action) (h : findChildAux actions ids a = some none) :
    findChildAux (actions ++ extra) (ids ++ [j]) a = findChildAux (actions ++ extra) [j] a := by
  induction ids with
  | nil => rfl
  | cons i rest ih =>
    unfold findChildAux at h
    cases hfn : findNode actions i with
    | none => rw [hfn] at h; cases h
    | some nd =>
      rw [hfn] at h
      dsimp only at h
      split at h
      · cases h
      · rename_i hne
        rw [show (i :: rest) ++ [j] = i :: (rest ++ [j]) from rfl,
            findChildAux_cons (actions ++ extra) i (rest ++ [j]) a nd
              (findNode_append_left actions extra i nd hfn),
            if_neg hne]
        exact ih h

theorem insertId_nodup (i : Nat) (l : List Nat) (h : (i :: l).Nodup) :
    (insertId i l).Nodup := ((insertId_perm i l).nodup_iff).mpr h

theorem sortIds_nodup (l : List Nat) (h : l.Nodup) : (sortIds l).Nodup :=
  ((sortIds_perm l).nodup_iff).mpr h

theorem sortIds_mem (l : List Nat) (i : Nat) : i ∈ sortIds l ↔ i ∈ l :=
  (sortIds_perm l).mem_iff


theorem traverseAux_cons (log : Log) (f : Nat) (i : Nat) (queue : List Nat) (nd : ActionNode)
    (hfn : findNode log.actions i = some nd) (sl : List Nat)
    (hsl : assocFind log.children nd.parent = some sl) :
    traverseAux log (f + 1) (i :: queue) =
      (traverseAux log f (sortIds ((assocFind log.children (some i)).getD []) ++ queue)).map
        (fun rest => i :: rest) := by
  conv_lhs => unfold traverseAux
  rw [hfn]
  dsimp only
  rw [hsl]

set_option maxHeartbeats 1000000 in
theorem traverseAux_perm (log : Log) (hwf : LogWF log) :
    ∀ fuel queue, queue.Nodup →
      (∀ q ∈ queue, q ∈ logIds log) →
      queue.Pairwise (indep log) →
      (remIds log queue).length < fuel →
      ∃ tr, traverseAux log fuel queue = some tr ∧ tr.Perm (remIds log queue) := by
  intro fuel
  induction fuel with
  | zero =>
    intro queue _ _ _ hlen
    exact absurd hlen (Nat.not_lt_zero _)
  | succ f IH =>
    intro queue hnd hsub hpw hlen
    cases queue with
    | nil =>
      refine ⟨[], rfl, ?_⟩
      have hrem : remIds log [] = [] := by
        unfold remIds
        simp
      rw [hrem]
    | cons i rest =>
      have hiid : i ∈ logIds log := hsub i (by simp)
      obtain ⟨nd, hfn⟩ : ∃ nd, findNode log.actions i = some nd :=
        Option.isSome_iff_exists.mp (findNode_isSome log.actions i hiid)
      have hmemnd := (findNode_mem _ _ _ hfn).1
      have hcc := hwf.2.2.2.2.2.1 nd hmemnd
      obtain ⟨sl, hsl⟩ : ∃ sl, assocFind log.children nd.parent = some sl := by
        cases hx : assocFind log.children nd.parent with
        | none => rw [hx] at hcc; simp at hcc
        | some l => exact ⟨l, rfl⟩
      obtain ⟨cs, hcs⟩ : ∃ cs, (assocFind log.children (some i)).getD [] = cs := ⟨_, rfl⟩
      have hstep := traverseAux_cons log f i rest nd hfn sl hsl
      rw [hcs] at hstep
      have hcssound : ∀ c ∈ cs, ∃ ndc, findNode log.actions c = some ndc ∧
          ndc.parent = some i ∧ i < c := by
        intro c hc
        exact childIds_sound log hwf i c (by rw [hcs]; exact hc)
      have hcsids : ∀ c ∈ cs, c ∈ logIds log := by
        intro c hc
        obtain ⟨ndc, hfnc, _, _⟩ := hcssound c hc
        exact (findNode_mem _ _ _ hfnc).2 ▸
          List.mem_map_of_mem ActionNode.id (findNode_mem _ _ _ hfnc).1
      have hcsanc : ∀ c ∈ cs, anc log c = c :: anc log i := by
        intro c hc
        obtain ⟨ndc, hfnc, hpc, _⟩ := hcssound c hc
        exact anc_node log hwf c i ndc hfnc hpc
      have hcsmemanc : ∀ c ∈ cs, i ∈ anc log c := by
        intro c hc
        rw [hcsanc c hc]
        exact List.mem_cons_of_mem c (mem_anc_self log i)
      have hcsnodup : cs.Nodup := by
        cases hx : assocFind log.children (some i) with
        | none =>
          rw [hx] at hcs
          simp at hcs
          subst hcs
          exact List.nodup_nil
        | some l =>
          rw [hx] at hcs
          simp at hcs
          subst hcs
          exact hwf.2.2.2.2.2.2 _ (assocFind_mem _ _ _ hx)
      rw [List.nodup_cons] at hnd
      rw [List.pairwise_cons] at hpw
      have hq'nodup : (sortIds cs ++ rest).Nodup := by
        rw [List.nodup_append]
        refine ⟨sortIds_nodup cs hcsnodup, hnd.2, ?_⟩
        intro c hc1 hc2
        have hc := (sortIds_mem cs c).mp hc1
        exact (hpw.1 c hc2).1 (hcsmemanc c hc)
      have hq'sub : ∀ q ∈ sortIds cs ++ rest, q ∈ logIds log := by
        intro q hq
        rcases List.mem_append.mp hq with h | h
        · exact hcsids q ((sortIds_mem cs q).mp h)
        · exact hsub q (List.mem_cons_of_mem i h)
      have hq'pw : (sortIds cs ++ rest).Pairwise (indep log) := by
        rw [List.pairwise_append]
        refine ⟨?_, hpw.2, ?_⟩
        · refine ((sortIds_perm cs).pairwise_iff (fun h => ⟨h.2, h.1⟩)).mpr ?_
          refine List.Pairwise.imp_of_mem ?_ hcsnodup
          intro c1 c2 hc1 hc2 hne
          constructor
          · intro hcontra
            rw [hcsanc c2 hc2] at hcontra
            rcases List.mem_cons.mp hcontra with h | h
            · exact hne h
            · have hle := anc_le log hwf i c1 h
              obtain ⟨_, _, _, hlt⟩ := hcssound c1 hc1
              omega
          · intro hcontra
            rw [hcsanc c1 hc1] at hcontra
            rcases List.mem_cons.mp hcontra with h | h
            · exact hne h.symm
            · have hle := anc_le log hwf i c2 h
              obtain ⟨_, _, _, hlt⟩ := hcssound c2 hc2
              omega
        · intro c hc q hq
          have hcin := (sortIds_mem cs c).mp hc
          have hiq := hpw.1 q hq
          constructor
          · intro hcontra
            exact hiq.1 (anc_sub log hwf q c hcontra i (hcsmemanc c hcin))
          · intro hcontra
            rw [hcsanc c hcin] at hcontra
            rcases List.mem_cons.mp hcontra with h | h
            · exact hiq.1 (h ▸ hcsmemanc c hcin)
            · exact hiq.2 h
      have hsplit : (remIds log (i :: rest)).Perm (i :: remIds log (sortIds cs ++ rest)) := by
        unfold remIds
        apply filter_split (logIds log) _ _ i hwf.1 hiid
        · intro j
          simp only [List.any_eq_true, decide_eq_true_eq, List.mem_cons, List.mem_append]
          constructor
          · rintro ⟨q, hq | hq, hanc⟩
            · subst hq
              rcases (mem_anc_iff log hwf q j).mp hanc with h | ⟨c, hcmem, hcanc⟩
              · exact Or.inl h
              · exact Or.inr ⟨c,
                  Or.inl ((sortIds_mem cs c).mpr (by rw [← hcs]; exact hcmem)), hcanc⟩
            · exact Or.inr ⟨q, Or.inr hq, hanc⟩
          · rintro (rfl | ⟨q, hq | hq, hanc⟩)
            · exact ⟨_, Or.inl rfl, mem_anc_self log _⟩
            · have hqcs := (sortIds_mem cs q).mp hq
              refine ⟨i, Or.inl rfl, ?_⟩
              exact (mem_anc_iff log hwf i j).mpr (Or.inr ⟨q, by rw [hcs]; exact hqcs, hanc⟩)
            · exact ⟨q, Or.inr hq, hanc⟩
        · rw [Bool.eq_false_iff]
          intro hcontra
          simp only [List.any_eq_true, decide_eq_true_eq, List.mem_append] at hcontra
          obtain ⟨q, hq | hq, hanc⟩ := hcontra
          · have hqcs := (sortIds_mem cs q).mp hq
            have hle := anc_le log hwf i q hanc
            obtain ⟨_, _, _, hlt⟩ := hcssound q hqcs
            omega
          · exact (hpw.1 q hq).2 hanc
      have hlen' : (remIds log (sortIds cs ++ rest)).length < f := by
        have hleq := hsplit.length_eq
        simp only [List.length_cons] at hleq
        omega
      obtain ⟨tr1, htr1, hp1⟩ := IH (sortIds cs ++ rest) hq'nodup hq'sub hq'pw hlen'
      refine ⟨i :: tr1, ?_, ?_⟩
      · rw [hstep, htr1]
        rfl
      · exact (List.Perm.cons i hp1).trans hsplit.symm


theorem childKey_sound (log : Log) (hwf : LogWF log) (key : Option Nat) (c : Nat)
    (hc : c ∈ (assocFind log.children key).getD []) :
    ∃ nd, findNode log.actions c = some nd ∧ nd.parent = key := by
  cases haf : assocFind log.children key with
  | none => rw [haf] at hc; simp at hc
  | some l =>
    rw [haf] at hc
    simp at hc
    have hmem := assocFind_mem _ _ _ haf
    have hsound := hwf.2.2.2.2.1 (key, l) hmem c hc
    cases hfn : findNode log.actions c with
    | none => rw [hfn] at hsound; simp at hsound
    | some nd =>
      rw [hfn] at hsound
      simp at hsound
      exact ⟨nd, rfl, hsound⟩

theorem root_anc (log : Log) (hwf : LogWF log) :
    ∀ j ∈ logIds log, ∃ r ∈ (assocFind log.children none).getD [], r ∈ anc log j := by
  intro j
  induction j using Nat.strong_induction_on with
  | _ j IH =>
    intro hj
    obtain ⟨nd, hfn⟩ : ∃ nd, findNode log.actions j = some nd :=
      Option.isSome_iff_exists.mp (findNode_isSome log.actions j hj)
    cases hp : nd.parent with
    | none =>
      refine ⟨j, ?_, mem_anc_self log j⟩
      have hcc := hwf.2.2.2.2.2.1 nd (findNode_mem _ _ _ hfn).1
      rw [hp] at hcc
      exact (findNode_mem _ _ _ hfn).2 ▸ hcc
    | some p =>
      have hplt := wf_parent_lt log hwf j p nd hfn hp
      have hpids : p ∈ logIds log :=
        (hwf.2.2.2.1 nd (findNode_mem _ _ _ hfn).1 p (by rw [hp]; simp)).2
      obtain ⟨r, hr, hranc⟩ := IH p hplt hpids
      refine ⟨r, hr, ?_⟩
      rw [anc_node log hwf j p nd hfn hp]
      exact List.mem_cons_of_mem j hranc

theorem roots_anc_self (log : Log) (hwf : LogWF log) (r : Nat)
    (hr : r ∈ (assocFind log.children none).getD []) : anc log r = [r] := by
  obtain ⟨nd, hfn, hp⟩ := childKey_sound log hwf none r hr
  rw [anc, ancChain_of_root log r nd hfn hp r]

theorem roots_nodup (log : Log) (hwf : LogWF log) :
    ((assocFind log.children none).getD []).Nodup := by
  cases hx : assocFind log.children none with
  | none => simp
  | some l =>
    simp
    exact hwf.2.2.2.2.2.2 _ (assocFind_mem _ _ _ hx)

theorem traverse_perm (log : Log) (hwf : LogWF log) :
    ∃ tr, log.traverse = some tr ∧ tr.Perm (logIds log) := by
  have hsub : ∀ q ∈ (assocFind log.children none).getD [], q ∈ logIds log := by
    intro q hq
    obtain ⟨nd, hfn, _⟩ := childKey_sound log hwf none q hq
    exact (findNode_mem _ _ _ hfn).2 ▸
      List.mem_map_of_mem ActionNode.id (findNode_mem _ _ _ hfn).1
  have hpw : ((assocFind log.children none).getD []).Pairwise (indep log) := by
    refine List.Pairwise.imp_of_mem ?_ (roots_nodup log hwf)
    intro r1 r2 h1 h2 hne
    constructor
    · intro hcontra
      rw [roots_anc_self log hwf r2 h2] at hcontra
      exact hne (List.mem_singleton.mp hcontra)
    · intro hcontra
      rw [roots_anc_self log hwf r1 h1] at hcontra
      exact hne (List.mem_singleton.mp hcontra).symm
  have hrem : remIds log ((assocFind log.children none).getD []) = logIds log := by
    unfold remIds
    apply List.filter_eq_self.mpr
    intro j hj
    obtain ⟨r, hr, hranc⟩ := root_anc log hwf j hj
    simp only [List.any_eq_true, decide_eq_true_eq]
    exact ⟨r, hr, hranc⟩
  have hlen : (remIds log ((assocFind log.children none).getD [])).length <
      log.actions.length + 1 := by
    rw [hrem]
    unfold logIds
    simp
  obtain ⟨tr, htr, hperm⟩ := traverseAux_perm log hwf (log.actions.length + 1)
    ((assocFind log.children none).getD []) (roots_nodup log hwf) hsub hpw hlen
  exact ⟨tr, htr, hrem ▸ hperm⟩


theorem next_id_fresh (log : Log) (hwf : LogWF log) :
    findNode log.actions log.next_id = none := by
  apply findNode_eq_none
  intro hc
  obtain ⟨nd, hmem, hid⟩ := List.mem_map.mp hc
  have := hwf.2.2.1 nd hmem
  omega

theorem insert_fresh_spec (log : Log) (hwf : LogWF log) (parent : Option Nat) (a : Action)
    (hfc : log.find_child parent a = some none) :
    log.insert parent a = some
      ({ config := log.config
         actions := log.actions ++ [⟨log.next_id, parent, a⟩]
         children := childPush log.children parent log.next_id
         next_id := log.next_id + 1 }, log.next_id) := by
  unfold Log.insert
  rw [hfc]
  dsimp only
  rw [next_id_fresh log hwf]
  rw [nodeInsert_fresh log.actions ⟨log.next_id, parent, a⟩ ?_]
  · rfl
  · intro x hx
    have := hwf.2.2.1 x hx
    dsimp only
    omega


set_option maxHeartbeats 1000000 in
theorem insert_wf (log : Log) (hwf : LogWF log) (parent : Option Nat) (a : Action)
    (hpv : parentValid log parent) :
    LogWF { config := log.config
            actions := log.actions ++ [⟨log.next_id, parent, a⟩]
            children := childPush log.children parent log.next_id
            next_id := log.next_id + 1 } := by
  have hfresh := next_id_fresh log hwf
  obtain ⟨h1, h2, h3, h4, h5, h6, h7⟩ := hwf
  have hnidnot : log.next_id ∉ log.actions.map ActionNode.id := by
    intro hc
    obtain ⟨nd, hmem, hid⟩ := List.mem_map.mp hc
    have := h3 nd hmem
    omega
  have hfn_new : findNode (log.actions ++ [⟨log.next_id, parent, a⟩]) log.next_id =
      some ⟨log.next_id, parent, a⟩ := by
    rw [findNode_append_right _ _ _ hfresh]
    simp [findNode]
  have hpar_facts : ∀ p1 ∈ parent.toList, p1 < log.next_id ∧ p1 ∈ log.actions.map ActionNode.id := by
    intro p1 hp1
    have hpid : p1 ∈ logIds log := hpv p1 hp1
    obtain ⟨ndp, hmemp, hidp⟩ := List.mem_map.mp hpid
    have := h3 ndp hmemp
    exact ⟨by omega, hpid⟩
  have hsound_mem : ∀ e ∈ log.children, ∀ i ∈ e.2, i ∈ log.actions.map ActionNode.id := by
    intro e he i hi
    have hs := h5 e he i hi
    cases hfn : findNode log.actions i with
    | none => rw [hfn] at hs; simp at hs
    | some ndi =>
      exact (findNode_mem _ _ _ hfn).2 ▸
        List.mem_map_of_mem ActionNode.id (findNode_mem _ _ _ hfn).1
  refine ⟨?_, ?_, ?_, ?_, ?_, ?_, ?_⟩
  · show ((log.actions ++ [(⟨log.next_id, parent, a⟩ : ActionNode)]).map ActionNode.id).Nodup
    rw [List.map_append]
    simp only [List.map_cons, List.map_nil]
    rw [List.nodup_append]
    refine ⟨h1, List.nodup_singleton _, ?_⟩
    intro x hx hxs
    rw [List.mem_singleton.mp hxs] at hx
    exact hnidnot hx
  · show ((childPush log.children parent log.next_id).map Prod.fst).Nodup
    cases haf : assocFind log.children parent with
    | none =>
      rw [childPush_notfound _ _ _ haf, List.map_append]
      simp only [List.map_cons, List.map_nil]
      rw [List.nodup_append]
      refine ⟨h2, List.nodup_singleton _, ?_⟩
      intro x hx hxs
      rw [List.mem_singleton.mp hxs] at hx
      exact assocFind_none_keys _ _ haf hx
    | some l =>
      rw [(childPush_found _ _ _ l haf).2.2]
      exact h2
  · intro nd hm
    rcases List.mem_append.mp hm with h | h
    · have := h3 nd h
      show nd.id < log.next_id + 1
      omega
    · rw [List.mem_singleton.mp h]
      show log.next_id < log.next_id + 1
      omega
  · intro nd hm p hp
    rcases List.mem_append.mp hm with h | h
    · have hold := h4 nd h p hp
      refine ⟨hold.1, ?_⟩
      show p ∈ (log.actions ++ [(⟨log.next_id, parent, a⟩ : ActionNode)]).map ActionNode.id
      rw [List.map_append]
      exact List.mem_append_left _ hold.2
    · rw [List.mem_singleton.mp h] at hp ⊢
      have hpf := hpar_facts p hp
      refine ⟨hpf.1, ?_⟩
      show p ∈ (log.actions ++ [(⟨log.next_id, parent, a⟩ : ActionNode)]).map ActionNode.id
      rw [List.map_append]
      exact List.mem_append_left _ hpf.2
  · intro e he i hi
    rcases childPush_mem _ _ _ e he with hca | ⟨e0, he0, hk0, hee⟩ | hee
    · have hs := h5 e hca i hi
      cases hfn : findNode log.actions i with
      | none => rw [hfn] at hs; simp at hs
      | some ndi =>
        rw [hfn] at hs
        show (findNode (log.actions ++ [(⟨log.next_id, parent, a⟩ : ActionNode)]) i).map ActionNode.parent =
          some e.1
        rw [findNode_append_left _ _ _ _ hfn]
        exact hs
    · subst hee
      rcases List.mem_append.mp hi with h | h
      · have hs := h5 e0 he0 i h
        cases hfn : findNode log.actions i with
        | none => rw [hfn] at hs; simp at hs
        | some ndi =>
          rw [hfn] at hs
          show (findNode (log.actions ++ [(⟨log.next_id, parent, a⟩ : ActionNode)]) i).map ActionNode.parent =
            some e0.1
          rw [findNode_append_left _ _ _ _ hfn]
          exact hs
      · rw [List.mem_singleton.mp h]
        show (findNode (log.actions ++ [(⟨log.next_id, parent, a⟩ : ActionNode)]) log.next_id).map
          ActionNode.parent = some e0.1
        rw [hfn_new, hk0]
        rfl
    · subst hee
      rw [List.mem_singleton.mp hi]
      show (findNode (log.actions ++ [(⟨log.next_id, parent, a⟩ : ActionNode)]) log.next_id).map
        ActionNode.parent = some parent
      rw [hfn_new]
      rfl
  · intro nd hm
    rcases List.mem_append.mp hm with h | h
    · have hstart := h6 nd h
      by_cases hpp : nd.parent = parent
      · show nd.id ∈ (assocFind (childPush log.children parent log.next_id) nd.parent).getD []
        rw [hpp]
        rw [hpp] at hstart
        cases haf : assocFind log.children parent with
        | none => rw [haf] at hstart; simp at hstart
        | some l =>
          rw [haf] at hstart
          rw [(childPush_found _ _ _ l haf).1]
          simp only [Option.getD_some] at hstart ⊢
          exact List.mem_append_left _ hstart
      · show nd.id ∈ (assocFind (childPush log.children parent log.next_id) nd.parent).getD []
        cases haf : assocFind log.children parent with
        | none =>
          rw [childPush_notfound _ _ _ haf]
          cases hbf : assocFind log.children nd.parent with
          | none => rw [hbf] at hstart; simp at hstart
          | some l2 =>
            rw [hbf] at hstart
            rw [assocFind_append_left _ _ _ _ hbf]
            exact hstart
        | some l =>
          rw [(childPush_found _ _ _ l haf).2.1 nd.parent hpp]
          exact hstart
    · rw [List.mem_singleton.mp h]
      show log.next_id ∈
        (assocFind (childPush log.children parent log.next_id) parent).getD []
      cases haf : assocFind log.children parent with
      | none =>
        rw [childPush_notfound _ _ _ haf, assocFind_append_right _ _ _ haf]
        simp [assocFind]
      | some l =>
        rw [(childPush_found _ _ _ l haf).1]
        simp
  · intro e he
    rcases childPush_mem _ _ _ e he with hca | ⟨e0, he0, hk0, hee⟩ | hee
    · exact h7 e hca
    · subst hee
      show (e0.2 ++ [log.next_id]).Nodup
      rw [List.nodup_append]
      refine ⟨h7 e0 he0, List.nodup_singleton _, ?_⟩
      intro x hx hxs
      rw [List.mem_singleton.mp hxs] at hx
      exact hnidnot (hsound_mem e0 he0 _ hx)
    · subst hee
      exact List.nodup_singleton _


theorem find_child_after (log : Log) (hwf : LogWF log) (parent : Option Nat) (a : Action)
    (hfc : log.find_child parent a = some none) :
    Log.find_child
      { config := log.config
        actions := log.actions ++ [⟨log.next_id, parent, a⟩]
        children := childPush log.children parent log.next_id
        next_id := log.next_id + 1 } parent a = some (some log.next_id) := by
  have hfresh := next_id_fresh log hwf
  have hfn_new : findNode (log.actions ++ [(⟨log.next_id, parent, a⟩ : ActionNode)])
      log.next_id = some ⟨log.next_id, parent, a⟩ := by
    rw [findNode_append_right _ _ _ hfresh]
    simp [findNode]
  unfold Log.find_child at hfc ⊢
  cases haf : assocFind log.children parent with
  | none =>
    show (match assocFind (childPush log.children parent log.next_id) parent with
      | none => some none
      | some ids => findChildAux (log.actions ++ [⟨log.next_id, parent, a⟩]) ids a) =
        some (some log.next_id)
    rw [childPush_notfound _ _ _ haf, assocFind_append_right _ _ _ haf]
    have hone : assocFind [(parent, [log.next_id])] parent = some [log.next_id] := by
      simp [assocFind]
    rw [hone]
    show findChildAux (log.actions ++ [⟨log.next_id, parent, a⟩]) [log.next_id] a =
      some (some log.next_id)
    rw [findChildAux_cons _ log.next_id [] a _ hfn_new]
    simp
  | some l =>
    rw [haf] at hfc
    dsimp only at hfc
    show (match assocFind (childPush log.children parent log.next_id) parent with
      | none => some none
      | some ids => findChildAux (log.actions ++ [⟨log.next_id, parent, a⟩]) ids a) =
        some (some log.next_id)
    rw [(childPush_found _ _ _ l haf).1]
    show findChildAux (log.actions ++ [⟨log.next_id, parent, a⟩]) (l ++ [log.next_id]) a =
      some (some log.next_id)
    rw [findChildAux_extend log.actions [⟨log.next_id, parent, a⟩] l log.next_id a hfc]
    rw [findChildAux_cons _ log.next_id [] a _ hfn_new]
    simp

theorem insert_twice (log : Log) (hwf : LogWF log) (parent : Option Nat) (a : Action)
    (hpv : parentValid log parent) :
    ∃ log1 id1, log.insert parent a = some (log1, id1) ∧ LogWF log1 ∧
      log1.insert parent a = some (log1, id1) := by
  obtain ⟨r, hfc⟩ := find_child_some log hwf parent a
  cases r with
  | some cid =>
    refine ⟨log, cid, ?_, hwf, ?_⟩ <;>
      (unfold Log.insert; rw [hfc])
  | none =>
    refine ⟨_, log.next_id, insert_fresh_spec log hwf parent a hfc,
      insert_wf log hwf parent a hpv, ?_⟩
    unfold Log.insert
    rw [find_child_after log hwf parent a hfc]

/-- Claim C7: Log::insert deduplicates: when an existing child of the parent
holds an equal action, insert returns that child's id with the log unchanged;
hence inserting the identical action twice under the identical parent returns
the same id both times with no second node, and the preorder traversal of the
resulting log still visits each bound node id exactly once. -/
theorem c7_insert_dedup (log : Log) (parent : Option Nat) (a : Action)
    (hwf : LogWF log) (hpv : parentValid log parent) :
    (∀ cid, log.find_child parent a = some (some cid) →
      log.insert parent a = some (log, cid)) ∧
    (∃ log1 id1, log.insert parent a = some (log1, id1) ∧
      log1.insert parent a = some (log1, id1) ∧
      ∃ tr, log1.traverse = some tr ∧ tr.Perm (logIds log1)) := by
  constructor
  · intro cid h
    unfold Log.insert
    rw [h]
  · obtain ⟨log1, id1, hi1, hwf1, hi2⟩ := insert_twice log hwf parent a hpv
    obtain ⟨tr, htr, hperm⟩ := traverse_perm log1 hwf1
    exact ⟨log1, id1, hi1, hi2, tr, htr, hperm⟩

theorem c7_insert_dedup_witness :
    (∀ cid, logC7W.find_child (some 0) aC7W = some (some cid) →
      logC7W.insert (some 0) aC7W = some (logC7W, cid)) ∧
    (∃ log1 id1, logC7W.insert (some 0) aC7W = some (log1, id1) ∧
      log1.insert (some 0) aC7W = some (log1, id1) ∧
      ∃ tr, log1.traverse = some tr ∧ tr.Perm (logIds log1)) :=
  c7_insert_dedup logC7W (some 0) aC7W (by decide) (by decide)


theorem chainNodes_length (j : Nat) (acts : List Action) :
    (chainNodes j acts).length = acts.length := by
  induction acts generalizing j with
  | nil => rfl
  | cons a rest ih =>
    show (chainNodes j (a :: rest)).length = rest.length + 1
    unfold chainNodes
    rw [List.length_cons, ih (j + 1)]

theorem chainNodes_append (j : Nat) (l1 l2 : List Action) :
    chainNodes j (l1 ++ l2) = chainNodes j l1 ++ chainNodes (j + l1.length) l2 := by
  induction l1 generalizing j with
  | nil => simp [chainNodes]
  | cons a rest ih =>
    show chainNodes j (a :: (rest ++ l2)) = chainNodes j (a :: rest) ++ _
    conv_lhs => unfold chainNodes
    conv_rhs => rw [show chainNodes j (a :: rest) =
      ⟨j, parentKey j, a⟩ :: chainNodes (j + 1) rest from rfl]
    rw [ih (j + 1)]
    simp only [List.cons_append, List.length_cons]
    have hsh : j + 1 + rest.length = j + (rest.length + 1) := by omega
    rw [hsh]

theorem parentKey_inj (n j : Nat) (h : parentKey n = parentKey j) : n = j := by
  unfold parentKey at h
  split at h <;> split at h
  · omega
  · cases h
  · cases h
  · injection h with h
    omega

theorem findNode_chainNodes (acts : List Action) :
    ∀ (j i : Nat) (hi : i < acts.length),
      findNode (chainNodes j acts) (j + i) =
        some ⟨j + i, parentKey (j + i), acts.get ⟨i, hi⟩⟩ := by
  induction acts with
  | nil =>
    intro j i hi
    simp at hi
  | cons a rest ih =>
    intro j i hi
    show (if j = j + i then some ⟨j, parentKey j, a⟩
      else findNode (chainNodes (j + 1) rest) (j + i)) =
      some ⟨j + i, parentKey (j + i), (a :: rest).get ⟨i, hi⟩⟩
    cases i with
    | zero =>
      rw [if_pos (by omega)]
      simp
    | succ m =>
      rw [if_neg (by omega)]
      have hm : m < rest.length := by
        simp only [List.length_cons] at hi
        omega
      have hshift : j + (m + 1) = (j + 1) + m := by omega
      rw [hshift, ih (j + 1) m hm]
      rfl

theorem findNode_chainNodes_none (acts : List Action) :
    ∀ (j i : Nat), j + acts.length ≤ i → findNode (chainNodes j acts) i = none := by
  induction acts with
  | nil =>
    intro j i _
    rfl
  | cons a rest ih =>
    intro j i h
    simp only [List.length_cons] at h
    show (if j = i then some ⟨j, parentKey j, a⟩
      else findNode (chainNodes (j + 1) rest) i) = none
    rw [if_neg (by omega)]
    exact ih (j + 1) i (by omega)

theorem chainChildren_keys (n : Nat) :
    (chainChildren n).map Prod.fst = (List.range n).map parentKey := by
  induction n with
  | zero => rfl
  | succ m ih =>
    show (chainChildren m ++ [(parentKey m, [m])]).map Prod.fst = _
    rw [List.map_append, ih, List.range_succ, List.map_append]
    rfl

theorem assocFind_chainChildren_none (n j : Nat) (hj : n ≤ j) :
    assocFind (chainChildren n) (parentKey j) = none := by
  cases hx : assocFind (chainChildren n) (parentKey j) with
  | none => rfl
  | some l =>
    exfalso
    have hmem := assocFind_mem _ _ _ hx
    have hkey : parentKey j ∈ (chainChildren n).map Prod.fst :=
      List.mem_map.mpr ⟨(parentKey j, l), hmem, rfl⟩
    rw [chainChildren_keys] at hkey
    obtain ⟨m, hm, hpk⟩ := List.mem_map.mp hkey
    have := parentKey_inj m j hpk
    rw [List.mem_range] at hm
    omega

theorem assocFind_chainChildren (n j : Nat) (hj : j < n) :
    assocFind (chainChildren n) (parentKey j) = some [j] := by
  induction n with
  | zero => omega
  | succ m ih =>
    show assocFind (chainChildren m ++ [(parentKey m, [m])]) (parentKey j) = some [j]
    by_cases hjm : j < m
    · exact assocFind_append_left _ _ _ _ (ih hjm)
    · have hje : j = m := by omega
      subst hje
      rw [assocFind_append_right _ _ _ (assocFind_chainChildren_none j j (le_refl j))]
      show (if parentKey j = parentKey j then some [j] else assocFind [] (parentKey j)) =
        some [j]
      rw [if_pos rfl]

theorem chainTrace_append (j : Nat) (l1 l2 : List Action) :
    chainTrace j (l1 ++ l2) = chainTrace j l1 ++ chainTrace (j + l1.length) l2 := by
  induction l1 generalizing j with
  | nil => simp [chainTrace]
  | cons a rest ih =>
    show chainTrace j (a :: (rest ++ l2)) = chainTrace j (a :: rest) ++ _
    conv_lhs => unfold chainTrace
    conv_rhs => rw [show chainTrace j (a :: rest) = (j, a) :: chainTrace (j + 1) rest from rfl]
    rw [ih (j + 1)]
    simp only [List.cons_append, List.length_cons]
    have hsh : j + 1 + rest.length = j + (rest.length + 1) := by omega
    rw [hsh]

theorem chainTrace_map_snd (j : Nat) (l : List Action) :
    (chainTrace j l).map Prod.snd = l := by
  induction l generalizing j with
  | nil => rfl
  | cons a rest ih =>
    show (chainTrace j (a :: rest)).map Prod.snd = a :: rest
    unfold chainTrace
    rw [List.map_cons, ih (j + 1)]

theorem chainTrace_fold (l : List Action) :
    ∀ (j : Nat) (c0 : Option Nat), l ≠ [] →
      (chainTrace j l).foldl (fun _ p => some p.1) c0 = some (j + l.length - 1) := by
  induction l with
  | nil =>
    intro j c0 h
    exact absurd rfl h
  | cons a rest ih =>
    intro j c0 _
    show (chainTrace (j + 1) rest).foldl (fun _ p => some p.1) (some j) = _
    cases hrest : rest with
    | nil => simp [chainTrace]
    | cons b r2 =>
      rw [← hrest, ih (j + 1) (some j) (by rw [hrest]; simp)]
      congr 1
      simp only [List.length_cons]
      omega


theorem chainNodes_id_lt (acts : List Action) :
    ∀ j, ∀ x ∈ chainNodes j acts, x.id < j + acts.length := by
  induction acts with
  | nil =>
    intro j x hx
    simp [chainNodes] at hx
  | cons a rest ih =>
    intro j x hx
    rw [show chainNodes j (a :: rest) = ⟨j, parentKey j, a⟩ :: chainNodes (j + 1) rest
      from rfl] at hx
    simp only [List.length_cons]
    rcases List.mem_cons.mp hx with h | h
    · subst h
      show j < j + (rest.length + 1)
      omega
    · have := ih (j + 1) x h
      omega

theorem findNode_chain0 (acts : List Action) (j : Nat) (hj : j < acts.length) :
    findNode (chainNodes 0 acts) j = some ⟨j, parentKey j, acts.get ⟨j, hj⟩⟩ := by
  have h := findNode_chainNodes acts 0 j hj
  simpa using h

theorem chain_insert_fresh (cfg : RoundConfig) (acts0 : List Action) (a : Action) :
    (Log.mk cfg (chainNodes 0 acts0) (chainChildren acts0.length) acts0.length).insert
        (parentKey acts0.length) a =
      some (Log.mk cfg (chainNodes 0 (acts0 ++ [a]))
        (chainChildren (acts0 ++ [a]).length) (acts0 ++ [a]).length, acts0.length) := by
  have hfc : (Log.mk cfg (chainNodes 0 acts0) (chainChildren acts0.length)
      acts0.length).find_child (parentKey acts0.length) a = some none := by
    unfold Log.find_child
    rw [show (Log.mk cfg (chainNodes 0 acts0) (chainChildren acts0.length)
      acts0.length).children = chainChildren acts0.length from rfl]
    rw [assocFind_chainChildren_none acts0.length acts0.length (le_refl _)]
  unfold Log.insert
  rw [hfc]
  try dsimp only
  rw [findNode_chainNodes_none acts0 0 acts0.length (by omega)]
  try dsimp only
  rw [nodeInsert_fresh _ _ (fun x hx => by
    have := chainNodes_id_lt acts0 0 x hx
    dsimp only
    omega)]
  rw [childPush_notfound _ _ _ (assocFind_chainChildren_none acts0.length acts0.length
    (le_refl _))]
  rw [chainNodes_append 0 acts0 [a]]
  simp only [List.length_append, List.length_cons, List.length_nil, Nat.zero_add]
  rfl

theorem chain_insert_dedup (log : Log) (acts : List Action) (j : Nat)
    (hact : log.actions = chainNodes 0 acts) (hch : log.children = chainChildren acts.length)
    (hj : j < acts.length) :
    log.insert (parentKey j) (acts.get ⟨j, hj⟩) = some (log, j) := by
  have hfc : log.find_child (parentKey j) (acts.get ⟨j, hj⟩) = some (some j) := by
    unfold Log.find_child
    rw [hch, assocFind_chainChildren acts.length j hj]
    dsimp only
    rw [hact, findChildAux_cons _ j [] _ _ (findNode_chain0 acts j hj)]
    rw [if_pos rfl]
  unfold Log.insert
  rw [hfc]

theorem backtraceAux_step (log : Log) (fuel id : Nat) (nd : ActionNode)
    (hfn : findNode log.actions id = some nd) :
    backtraceAux log (fuel + 1) (some id) =
      (backtraceAux log fuel nd.parent).map
        (fun res => res.map (fun trace => trace ++ [(nd.id, nd.action)])) := by
  conv_lhs => unfold backtraceAux
  rw [hfn]

theorem chainTrace_take_succ (acts : List Action) (j : Nat) (hj : j < acts.length) :
    chainTrace 0 (acts.take (j + 1)) =
      chainTrace 0 (acts.take j) ++ [(j, acts.get ⟨j, hj⟩)] := by
  rw [List.take_succ, chainTrace_append]
  congr 1
  rw [List.getElem?_eq_getElem hj]
  show chainTrace (0 + (acts.take j).length) [acts[j]] = [(j, acts.get ⟨j, hj⟩)]
  have hlen : (acts.take j).length = j := by
    rw [List.length_take]
    omega
  rw [hlen]
  simp [chainTrace]

theorem backtraceAux_none (log : Log) (fuel : Nat) :
    backtraceAux log fuel none = some (Except.ok []) := by
  cases fuel <;> rfl

theorem chain_backtraceAux (log : Log) (acts : List Action)
    (hact : log.actions = chainNodes 0 acts) :
    ∀ (j : Nat), j < acts.length → ∀ (fuel : Nat), j + 1 ≤ fuel →
      backtraceAux log fuel (some j) =
        some (Except.ok (chainTrace 0 (acts.take (j + 1)))) := by
  intro j
  induction j using Nat.strong_induction_on with
  | _ j IH =>
    intro hj fuel hfuel
    obtain ⟨f, rfl⟩ : ∃ f, fuel = f + 1 := ⟨fuel - 1, by omega⟩
    have hfn : findNode log.actions j = some ⟨j, parentKey j, acts.get ⟨j, hj⟩⟩ := by
      rw [hact]
      exact findNode_chain0 acts j hj
    rw [backtraceAux_step log f j _ hfn]
    rw [chainTrace_take_succ acts j hj]
    cases j with
    | zero =>
      show Option.map _ (backtraceAux log f none) = _
      rw [backtraceAux_none]
      rfl
    | succ m =>
      show Option.map _ (backtraceAux log f (parentKey (m + 1))) = _
      rw [show parentKey (m + 1) = some m from by unfold parentKey; simp]
      rw [IH m (by omega) (by omega) f (by omega)]
      rfl


theorem parentKey_succ (n : Nat) : parentKey (n + 1) = some n := by
  unfold parentKey
  simp

theorem apply_action_chain (cfg : RoundConfig) (acts0 : List Action) (lr : LoggingRound)
    (hCL : ChainLog cfg acts0 lr) (a : Action) (r1 : BaseRound)
    (hba : lr.round.apply_action a = some (r1, none)) :
    lr.apply_action a = some
      ({ round := r1
         log := Log.mk cfg (chainNodes 0 (acts0 ++ [a]))
           (chainChildren (acts0 ++ [a]).length) (acts0 ++ [a]).length
         cursor := some acts0.length }, none) := by
  obtain ⟨hcfg, hact, hch, hnid, hcur⟩ := hCL
  have hlog : lr.log = Log.mk cfg (chainNodes 0 acts0) (chainChildren acts0.length)
      acts0.length := by
    have heta : lr.log = Log.mk lr.log.config lr.log.actions lr.log.children
      lr.log.next_id := rfl
    rw [heta, hcfg, hact, hch, hnid]
  unfold LoggingRound.apply_action
  rw [hba]
  dsimp only
  rw [hcur, hlog, chain_insert_fresh cfg acts0 a]

theorem runL_chain (cfg : RoundConfig) :
    ∀ (acts acts0 : List Action) (lr lrN : LoggingRound),
      ChainLog cfg acts0 lr → runL lr acts = some lrN →
      runB lr.round acts = some lrN.round ∧ ChainLog cfg (acts0 ++ acts) lrN := by
  intro acts
  induction acts with
  | nil =>
    intro acts0 lr lrN hCL h
    injection h with h
    subst h
    rw [List.append_nil]
    exact ⟨rfl, hCL⟩
  | cons a rest ih =>
    intro acts0 lr lrN hCL h
    unfold runL at h
    cases hba : lr.round.apply_action a with
    | none =>
      have hstep : lr.apply_action a = none := by
        unfold LoggingRound.apply_action
        rw [hba]
      rw [hstep] at h
      cases h
    | some pr =>
      obtain ⟨r1, e⟩ := pr
      cases e with
      | some err =>
        have hstep : lr.apply_action a = some ({ lr with round := r1 }, some err) := by
          unfold LoggingRound.apply_action
          rw [hba]
        rw [hstep] at h
        cases h
      | none =>
        have hstep := apply_action_chain cfg acts0 lr hCL a r1 hba
        rw [hstep] at h
        try dsimp only at h
        have hCL1 : ChainLog cfg (acts0 ++ [a])
            { round := r1
              log := Log.mk cfg (chainNodes 0 (acts0 ++ [a]))
                (chainChildren (acts0 ++ [a]).length) (acts0 ++ [a]).length
              cursor := some acts0.length } := by
          refine ⟨rfl, rfl, rfl, rfl, ?_⟩
          show some acts0.length = parentKey (acts0 ++ [a]).length
          rw [List.length_append, List.length_cons, List.length_nil, parentKey_succ]
        obtain ⟨hrunB, hCLN⟩ := ih (acts0 ++ [a]) _ lrN hCL1 h
        constructor
        · show runB lr.round (a :: rest) = some lrN.round
          unfold runB
          rw [hba]
          exact hrunB
        · rw [List.append_assoc] at hCLN
          exact hCLN

theorem seekLoop_ok :
    ∀ (trace : List (Nat × Action)) (lr : LoggingRound) (rK : BaseRound),
      runB lr.round (trace.map Prod.snd) = some rK →
      ∃ lrS, seekLoop lr trace = some (lrS, none) ∧ lrS.round = rK ∧
        lrS.log = lr.log ∧
        lrS.cursor = trace.foldl (fun _ p => some p.1) lr.cursor := by
  intro trace
  induction trace with
  | nil =>
    intro lr rK h
    injection h with h
    exact ⟨lr, rfl, h, rfl, rfl⟩
  | cons p rest ih =>
    obtain ⟨id, a⟩ := p
    intro lr rK h
    simp only [List.map_cons] at h
    unfold runB at h
    cases hba : lr.round.apply_action a with
    | none =>
      rw [hba] at h
      cases h
    | some pr =>
      obtain ⟨r1, e⟩ := pr
      cases e with
      | some err =>
        rw [hba] at h
        cases h
      | none =>
        rw [hba] at h
        dsimp only at h
        obtain ⟨lrS, hseek, hround, hlog, hcur⟩ :=
          ih { lr with round := r1, cursor := some id } rK h
        refine ⟨lrS, ?_, hround, hlog, hcur⟩
        show seekLoop lr ((id, a) :: rest) = some (lrS, none)
        conv_lhs => unfold seekLoop
        rw [hba]
        dsimp only
        exact hseek

theorem runB_append (l1 : List Action) :
    ∀ (l2 : List Action) (r rN : BaseRound), runB r (l1 ++ l2) = some rN →
      ∃ rK, runB r l1 = some rK ∧ runB rK l2 = some rN := by
  induction l1 with
  | nil =>
    intro l2 r rN h
    exact ⟨r, rfl, h⟩
  | cons a rest ih =>
    intro l2 r rN h
    show ∃ rK, runB r (a :: rest) = some rK ∧ runB rK l2 = some rN
    rw [show (a :: rest) ++ l2 = a :: (rest ++ l2) from rfl] at h
    unfold runB at h
    cases hba : r.apply_action a with
    | none =>
      rw [hba] at h
      cases h
    | some pr =>
      obtain ⟨r1, e⟩ := pr
      cases e with
      | some err =>
        rw [hba] at h
        cases h
      | none =>
        rw [hba] at h
        dsimp only at h
        obtain ⟨rK, h1, h2⟩ := ih l2 r1 rN h
        refine ⟨rK, ?_, h2⟩
        unfold runB
        rw [hba]
        exact h1

theorem runL_replay (acts : List Action) (log : Log)
    (hact : log.actions = chainNodes 0 acts)
    (hch : log.children = chainChildren acts.length) :
    ∀ (d k : Nat), acts.length - k = d → k ≤ acts.length →
      ∀ (lr : LoggingRound) (rN : BaseRound),
        lr.log = log → lr.cursor = parentKey k →
        runB lr.round (acts.drop k) = some rN →
        ∃ lrF, runL lr (acts.drop k) = some lrF ∧ lrF.round = rN ∧ lrF.log = log ∧
          lrF.cursor = parentKey acts.length := by
  intro d
  induction d with
  | zero =>
    intro k hd hk lr rN hlog hcur h
    have hke : k = acts.length := by omega
    subst hke
    rw [List.drop_length] at h ⊢
    injection h with h
    exact ⟨lr, rfl, h, hlog, hcur⟩
  | succ d ih =>
    intro k hd hk lr rN hlog hcur h
    have hklt : k < acts.length := by omega
    have hdrop : acts.drop k = acts.get ⟨k, hklt⟩ :: acts.drop (k + 1) := by
      rw [List.drop_eq_getElem_cons hklt]
      rfl
    rw [hdrop] at h ⊢
    unfold runB at h
    cases hba : lr.round.apply_action (acts.get ⟨k, hklt⟩) with
    | none =>
      rw [hba] at h
      cases h
    | some pr =>
      obtain ⟨r1, e⟩ := pr
      cases e with
      | some err =>
        rw [hba] at h
        cases h
      | none =>
        rw [hba] at h
        dsimp only at h
        have hstep : lr.apply_action (acts.get ⟨k, hklt⟩) =
            some ({ round := r1, log := log, cursor := some k }, none) := by
          unfold LoggingRound.apply_action
          rw [hba]
          dsimp only
          rw [hcur, hlog, chain_insert_dedup log acts k hact hch hklt]
        obtain ⟨lrF, hrun, hround, hlogF, hcurF⟩ :=
          ih (k + 1) (by omega) (by omega) { round := r1, log := log, cursor := some k }
            rN rfl (by rw [parentKey_succ]) h
        refine ⟨lrF, ?_, hround, hlogF, hcurF⟩
        show runL lr (acts.get ⟨k, hklt⟩ :: acts.drop (k + 1)) = some lrF
        conv_lhs => unfold runL
        rw [hstep]
        exact hrun


set_option maxHeartbeats 1000000 in
/-- Claim C1: seek/replay equivalence: running a1..an from a fresh logging
round, seeking to the node recorded for the k-th action and then re-applying
a(k+1)..an reaches a round state whose hands, contract, tricks and next
action agree with the state reached by the direct run. -/
theorem c1_seek_replay (cfg : RoundConfig) (acts : List Action) (k : Nat)
    (lrN lrK : LoggingRound)
    (hN : runL (LoggingRound.fromConfig cfg) acts = some lrN)
    (hK : runL (LoggingRound.fromConfig cfg) (acts.take k) = some lrK)
    (hk : k ≤ acts.length) :
    ∃ lrS lrF, lrN.seek lrK.cursor = some (lrS, none) ∧
      runL lrS (acts.drop k) = some lrF ∧
      lrF.round.hands = lrN.round.hands ∧
      lrF.round.contract = lrN.round.contract ∧
      lrF.round.tricks = lrN.round.tricks ∧
      lrF.round.next_action = lrN.round.next_action := by
  have hCL0 : ChainLog cfg [] (LoggingRound.fromConfig cfg) := ⟨rfl, rfl, rfl, rfl, rfl⟩
  obtain ⟨hrunBN, hCLN⟩ := runL_chain cfg acts [] _ lrN hCL0 hN
  obtain ⟨hrunBK, hCLK⟩ := runL_chain cfg (acts.take k) [] _ lrK hCL0 hK
  rw [List.nil_append] at hCLN hCLK
  obtain ⟨hcfgN, hactN, hchN, hnidN, hcurN⟩ := hCLN
  obtain ⟨hcfgK, hactK, hchK, hnidK, hcurK⟩ := hCLK
  have htklen : (acts.take k).length = k := by
    rw [List.length_take]
    omega
  rw [htklen] at hcurK
  have hrestart : lrN.restart =
      { round := BaseRound.fromConfig cfg, log := lrN.log, cursor := none } := by
    unfold LoggingRound.restart
    rw [hcfgN]
  have hrunBN2 : runB (BaseRound.fromConfig cfg) acts = some lrN.round := hrunBN
  have hrunBK2 : runB (BaseRound.fromConfig cfg) (acts.take k) = some lrK.round := hrunBK
  have hsplitB : runB (BaseRound.fromConfig cfg) (acts.take k ++ acts.drop k) =
      some lrN.round := by
    rw [List.take_append_drop]
    exact hrunBN2
  obtain ⟨rK2, hB1, hB2⟩ := runB_append (acts.take k) (acts.drop k)
    (BaseRound.fromConfig cfg) lrN.round hsplitB
  have hrK : rK2 = lrK.round := by
    rw [hB1] at hrunBK2
    injection hrunBK2
  rw [hrK] at hB2
  unfold LoggingRound.seek
  rw [hcurK]
  rcases Nat.eq_zero_or_pos k with hk0 | hk0
  · subst hk0
    rw [show parentKey 0 = none from rfl]
    obtain ⟨lrF, hrun, hroundF, hlogF, hcurF⟩ := runL_replay acts lrN.log hactN hchN
      acts.length 0 (by omega) (by omega)
      { round := BaseRound.fromConfig cfg, log := lrN.log, cursor := none }
      lrN.round rfl rfl
      (by rw [List.drop_zero]; exact hrunBN2)
    refine ⟨lrN.restart, lrF, rfl, ?_, ?_, ?_, ?_, ?_⟩
    · rw [hrestart]
      exact hrun
    · rw [hroundF]
    · rw [hroundF]
    · rw [hroundF]
    · rw [hroundF]
  · obtain ⟨k1, rfl⟩ : ∃ k1, k = k1 + 1 := ⟨k - 1, by omega⟩
    rw [parentKey_succ k1]
    have hlen_act : lrN.log.actions.length = acts.length := by
      rw [hactN, chainNodes_length]
    have hbt : lrN.log.backtrace k1 =
        some (Except.ok (chainTrace 0 (acts.take (k1 + 1)))) := by
      unfold Log.backtrace
      rw [chain_backtraceAux lrN.log acts hactN k1 (by omega) _ (by rw [hlen_act]; omega)]
    rw [hrestart]
    dsimp only
    rw [hbt]
    obtain ⟨lrS, hseek, hroundS, hlogS, hcurS⟩ := seekLoop_ok
      (chainTrace 0 (acts.take (k1 + 1)))
      { round := BaseRound.fromConfig cfg, log := lrN.log, cursor := none }
      lrK.round
      (by rw [chainTrace_map_snd]; exact hrunBK2)
    have htkne : acts.take (k1 + 1) ≠ [] := by
      intro hcontra
      rw [hcontra] at htklen
      simp at htklen
    have hcurS2 : lrS.cursor = parentKey (k1 + 1) := by
      rw [hcurS, chainTrace_fold (acts.take (k1 + 1)) 0 none htkne, htklen, parentKey_succ]
      congr 1
      omega
    obtain ⟨lrF, hrun, hroundF, hlogF, hcurF⟩ := runL_replay acts lrN.log hactN hchN
      (acts.length - (k1 + 1)) (k1 + 1) rfl (by omega) lrS lrN.round hlogS hcurS2
      (by rw [hroundS]; exact hB2)
    exact ⟨lrS, lrF, hseek, hrun, by rw [hroundF], by rw [hroundF], by rw [hroundF],
      by rw [hroundF]⟩


theorem c1_seek_replay_witness :
    ∃ lrS lrF,
      ((runL (LoggingRound.fromConfig cfgA) (actsA.take 3)).getD
          (LoggingRound.fromConfig cfgA)).seek
        (((runL (LoggingRound.fromConfig cfgA) ((actsA.take 3).take 2)).getD
          (LoggingRound.fromConfig cfgA)).cursor) = some (lrS, none) ∧
      runL lrS ((actsA.take 3).drop 2) = some lrF ∧
      lrF.round.hands = ((runL (LoggingRound.fromConfig cfgA) (actsA.take 3)).getD
        (LoggingRound.fromConfig cfgA)).round.hands ∧
      lrF.round.contract = ((runL (LoggingRound.fromConfig cfgA) (actsA.take 3)).getD
        (LoggingRound.fromConfig cfgA)).round.contract ∧
      lrF.round.tricks = ((runL (LoggingRound.fromConfig cfgA) (actsA.take 3)).getD
        (LoggingRound.fromConfig cfgA)).round.tricks ∧
      lrF.round.next_action = ((runL (LoggingRound.fromConfig cfgA) (actsA.take 3)).getD
        (LoggingRound.fromConfig cfgA)).round.next_action :=
  c1_seek_replay cfgA (actsA.take 3) 2 _ _ (by decide) (by decide) (by decide)

end Deckard
